import Mathlib

/-!
Verification of the temperature-compensated bias-control daemon (`biasAdj.py`).

The control core is shallowly embedded: Python floats become exact rationals
(`ℚ`), DAC codes become integers (`ℤ`), NaN-able readings become `Option ℚ`,
and the blocking round-robin ramp loop becomes a fuel-indexed structural
recursion whose fuel is proven sufficient.  Environment-variable configuration
is embedded at its default values, except where a claim quantifies over the
configured value (the anti-dither thresholds and the outlier-filter enable
flag), which are passed as explicit parameters.
-/

set_option maxRecDepth 100000

namespace BiasAdj

/-! ## Configuration constants (source: biasAdj.py lines 44-92, defaults) -/

/-- Fixed reference temperature `REF_TEMP_C` (default "20.0"). -/
def REF_TEMP_C : ℚ := 20

/-- SiPM temperature slope `TEMP_COEFF_V_PER_C` in V per degree C (default "0.054"). -/
def TEMP_COEFF_V_PER_C : ℚ := 54 / 1000

/-- DAC model offset `VOFF` (default "-0.0226786515445685"). -/
def VOFF : ℚ := -(226786515445685 : ℚ) / 10 ^ 16

/-- DAC model span `SPAN` (default "2.3527073030891374"). -/
def SPAN : ℚ := (23527073030891374 : ℚ) / 10 ^ 16

/-- `V_PER_CODE_V = SPAN / 1023.0`. -/
def V_PER_CODE_V : ℚ := SPAN / 1023

/-- Anti-dither code threshold `MIN_STEP_CODES` (default "5"). -/
def MIN_STEP_CODES : ℤ := 5

/-- Anti-dither voltage threshold `MIN_STEP_VOLTS` (default "0.012"). -/
def MIN_STEP_VOLTS : ℚ := 12 / 1000

/-- `EXPECTED_SAMPLES_PER_BLOCK = round(LOG_BLOCK_SEC / SAMPLE_EVERY_SEC) = round(300/10)`. -/
def EXPECTED_SAMPLES_PER_BLOCK : ℕ := 30

/-- `MIN_SAMPLES_PER_BLOCK = max(1, int(0.80 * EXPECTED_SAMPLES_PER_BLOCK))`.
Python `int` truncates toward zero; the operand is nonnegative so it is a floor. -/
def MIN_SAMPLES_PER_BLOCK : ℕ := max 1 (⌊(8 / 10 : ℚ) * (EXPECTED_SAMPLES_PER_BLOCK : ℚ)⌋.toNat)

/-- Temperature standard-deviation gate `T_STD_MAX_C` (default "0.20"). -/
def T_STD_MAX_C : ℚ := 2 / 10

/-- Temperature spike clamp `MAX_DT_ABS_C` (default "10.0"). -/
def MAX_DT_ABS_C : ℚ := 10

/-- Per-block code-move bound `MAX_CODES_STEP_PER_BLOCK` (default "120"). -/
def MAX_CODES_STEP_PER_BLOCK : ℤ := 120

/-- Gap after every DAC write `INTER_DAC_WRITE_GAP_SEC` (default "0.5"). -/
def INTER_DAC_WRITE_GAP_SEC : ℚ := 1 / 2

/-- Outlier filter minimum point count `OUTLIER_MIN_POINTS` (default "8"). -/
def OUTLIER_MIN_POINTS : ℕ := 8

/-- Outlier filter robust z threshold `OUTLIER_MAD_Z` (default "3.5"). -/
def OUTLIER_MAD_Z : ℚ := 7 / 2

/-- Configured channel list `CHANNELS = [0, 1, 2, 3]`. -/
def CHANNELS : List ℕ := [0, 1, 2, 3]

/-- Start code `0x2F1` used for every channel in `START_CODES`. -/
def START_CODE : ℤ := 0x2F1

/-! ## Helper functions (source: biasAdj.py lines 96-111) -/

/-- `clamp(x, lo, hi)` on floats (embedded as rationals). -/
def clampQ (x lo hi : ℚ) : ℚ :=
  if x < lo then lo
  else if x > hi then hi
  else x

/-- `clamp(x, lo, hi)` on ints (the same Python function, at integer arguments). -/
def clampZ (x lo hi : ℤ) : ℤ :=
  if x < lo then lo
  else if x > hi then hi
  else x

/-- Python's built-in `round` to an integer: round half to even (banker's rounding). -/
def pyRound (q : ℚ) : ℤ :=
  let f := ⌊q⌋
  let r := q - (f : ℚ)
  if r < 1 / 2 then f
  else if 1 / 2 < r then f + 1
  else if f % 2 = 0 then f else f + 1

/-- `code_to_vlow(code)`: the calibration model's forward map.
Python's `int(code) & 0x3FF` equals the floor-mod `code % 1024` for every
integer (0x3FF masks to the low ten bits with two's-complement semantics),
and `Int.emod` by the positive constant 1024 is that floor-mod. -/
def code_to_vlow (code : ℤ) : ℚ :=
  let frac : ℚ := max 0 (min 1 (((code % 1024 : ℤ) : ℚ) / 1023))
  max 0 (VOFF + SPAN * frac)

/-- `vlow_to_code(v)`: the calibration model's inverse map.
Note the pre-clamp `v = max(0.0, float(v))` before inverting. -/
def vlow_to_code (v : ℚ) : ℤ :=
  let v' := max 0 v
  let code := pyRound (((v' - VOFF) / SPAN) * 1023)
  max 0 (min 1023 code)

/-! ## Statistics (Python `statistics.mean`, `statistics.pstdev`, `statistics.median`) -/

/-- `statistics.mean` (junk value 0 on the empty list, on which Python raises). -/
def mean (l : List ℚ) : ℚ := l.sum / l.length

/-- The population variance underlying `statistics.pstdev`: `pstdev l = sqrt (pvariance l)`.
The daemon only ever compares `pstdev` against the nonnegative threshold
`T_STD_MAX_C`, and `pstdev l > T_STD_MAX_C ↔ pvariance l > T_STD_MAX_C ^ 2`,
so the embedding works with the variance and the squared threshold throughout
(square roots of rationals are irrational in general). -/
def pvariance (l : List ℚ) : ℚ :=
  (l.map (fun x => (x - mean l) ^ 2)).sum / l.length

/-- `statistics.median`: middle element of the sorted list for odd length, the
average of the two middle elements for even length (junk value 0 on the empty
list, on which Python raises). -/
def median (l : List ℚ) : ℚ :=
  let s := List.insertionSort (· ≤ ·) l
  let n := l.length
  if n % 2 = 1 then s.getD (n / 2) 0
  else (s.getD (n / 2 - 1) 0 + s.getD (n / 2) 0) / 2

/-! ## Outlier filter (source: biasAdj.py lines 159-187, `filter_temp_outliers`)

A block row is `(temp_C, pressure_hPa, humidity_pct)`.  The enable flag
`OUTLIER_FILTER_ENABLE` is environment-configured, so it is a parameter. -/

/-- One block sample row `(temp_C, pressure_hPa, humidity_pct)`. -/
abbrev Row : Type := ℚ × ℚ × ℚ

/-- The row loop of `filter_temp_outliers`: keep rows whose temperature deviates
from the median by at most `thresh`, count the rows dropped. -/
def splitByDev (t_med thresh : ℚ) : List Row → List Row × ℕ
  | [] => ([], 0)
  | r :: rs =>
    let p := splitByDev t_med thresh rs
    if |r.1 - t_med| ≤ thresh then (r :: p.1, p.2) else (p.1, p.2 + 1)

/-- `filter_temp_outliers(block_rows)`, with the configured enable flag explicit.
Returns the filtered rows and the removed count. -/
def filter_temp_outliers (enable : Bool) (block_rows : List Row) : List Row × ℕ :=
  if ¬enable ∨ block_rows.length < OUTLIER_MIN_POINTS then (block_rows, 0)
  else
    let temps := block_rows.map (fun r => r.1)
    let t_med := median temps
    let abs_dev := temps.map (fun t => |t - t_med|)
    let mad := median abs_dev
    if mad ≤ 1 / 10 ^ 9 then (block_rows, 0)
    else
      let sigma_like := (14826 / 10 ^ 4) * mad
      let thresh := OUTLIER_MAD_Z * sigma_like
      splitByDev t_med thresh block_rows

/-- The claim C3 test block: nine samples at 20.00 C and one at 35.00 C. -/
def testBlockC3 : List Row :=
  [(20, 1000, 50), (20, 1000, 50), (20, 1000, 50), (20, 1000, 50), (20, 1000, 50),
   (20, 1000, 50), (20, 1000, 50), (20, 1000, 50), (20, 1000, 50), (35, 1000, 50)]

/-! ## Compensation calculator and anti-dither gate
(source: biasAdj.py lines 436-474, the per-block bias math of `main`) -/

/-- `dT = clamp(T_avg - ref_temp, -MAX_DT_ABS_C, MAX_DT_ABS_C)` (lines 436-437). -/
def block_dT_of (T_avg : ℚ) : ℚ :=
  clampQ (T_avg - REF_TEMP_C) (-MAX_DT_ABS_C) MAX_DT_ABS_C

/-- `dV = -TEMP_COEFF_V_PER_C * dT` (line 441). -/
def block_dV_of (dT : ℚ) : ℚ := -TEMP_COEFF_V_PER_C * dT

/-- The per-channel target code of one block (lines 448-457):
absolute voltage target from the per-channel reference voltage, inverted to a
code, its move from the previous code clamped to `MAX_CODES_STEP_PER_BLOCK`,
and the result clamped into [0, 1023]. -/
def plan_code_tgt (vlow_ref dV : ℚ) (code_prev : ℤ) : ℤ :=
  let code_tgt_abs := vlow_to_code (vlow_ref + dV)
  let delta_codes := clampZ (code_tgt_abs - code_prev)
      (-MAX_CODES_STEP_PER_BLOCK) MAX_CODES_STEP_PER_BLOCK
  max 0 (min 1023 (code_prev + delta_codes))

/-- The per-channel planning step including the anti-dither checks
(lines 448-474): `none` when the move is discarded, `some target` when the
channel is queued for the ramp.  The two anti-dither thresholds are
environment-configured, so they are parameters (defaults `MIN_STEP_CODES`
and `MIN_STEP_VOLTS`). -/
def planChannel (minStepCodes : ℤ) (minStepVolts : ℚ) (vlow_ref dV : ℚ)
    (code_prev : ℤ) : Option ℤ :=
  let code_tgt := plan_code_tgt vlow_ref dV code_prev
  if |code_tgt - code_prev| < minStepCodes then none
  else if |code_to_vlow code_tgt - code_to_vlow code_prev| < minStepVolts then none
  else some code_tgt

/-- Modelled from the spec: section 4.1's written inverse map
`inverse(voltage) = clamp(round(((voltage - offset)/span)*1023), 0, 1023)`.
Unlike the implementation's `vlow_to_code`, the spec's formula has no
`max(0, voltage)` pre-clamp. -/
def spec_inverse (v : ℚ) : ℤ :=
  clampZ (pyRound (((v - VOFF) / SPAN) * 1023)) 0 1023

/-- Modelled from the spec: the compensation law of section 4.5 as written —
`dT = clamp(avg_temp - reference_temp, -max_abs_dT, +max_abs_dT)`;
`shift = -temperature_coefficient * dT`;
`target_voltage = reference_voltage + shift`;
`target_code_unclamped = inverse(target_voltage)`;
`delta = clamp(target_code_unclamped - last_applied_code, -max_step_per_block, +max_step_per_block)`;
`target_code = clamp(last_applied_code + delta, 0, 1023)`. -/
def spec_target_code (avg_temp reference_voltage : ℚ) (last_applied_code : ℤ) : ℤ :=
  let dT := clampQ (avg_temp - REF_TEMP_C) (-MAX_DT_ABS_C) MAX_DT_ABS_C
  let shift := -TEMP_COEFF_V_PER_C * dT
  let target_voltage := reference_voltage + shift
  let target_code_unclamped := spec_inverse target_voltage
  let delta := clampZ (target_code_unclamped - last_applied_code)
      (-MAX_CODES_STEP_PER_BLOCK) MAX_CODES_STEP_PER_BLOCK
  clampZ (last_applied_code + delta) 0 1023

/-- The spec's compensation law amended at one point: the implementation
clamps the target voltage at zero before inverting (`vlow_to_code` computes
`inverse(max(0, target_voltage))`). -/
def spec_target_code_amended (avg_temp reference_voltage : ℚ)
    (last_applied_code : ℤ) : ℤ :=
  let dT := clampQ (avg_temp - REF_TEMP_C) (-MAX_DT_ABS_C) MAX_DT_ABS_C
  let shift := -TEMP_COEFF_V_PER_C * dT
  let target_voltage := reference_voltage + shift
  let target_code_unclamped := spec_inverse (max 0 target_voltage)
  let delta := clampZ (target_code_unclamped - last_applied_code)
      (-MAX_CODES_STEP_PER_BLOCK) MAX_CODES_STEP_PER_BLOCK
  clampZ (last_applied_code + delta) 0 1023

/-! ## Round-robin ramp (source: biasAdj.py lines 189-230, `ramp_codes_round_robin`)

The hardware collaborator `set_dac_and_read` is a fallible apply returning
possibly-NaN voltages; it is abstracted as `readOf : ℕ → ℤ → Reading`, with
`none` components standing for NaN.  The wall-clock sleeps are recorded as
trace events. -/

/-- A hardware reading `(hv, vlow, vbias)`; `none` stands for NaN. -/
abbrev Reading : Type := Option ℚ × Option ℚ × Option ℚ

/-- Observable events of the ramp: one `write` per DAC apply, one `sleep`
per `time.sleep(INTER_DAC_WRITE_GAP_SEC)`. -/
inductive Ev : Type where
  | write : ℕ → ℤ → Ev
  | sleep : ℚ → Ev
deriving DecidableEq

/-- Per-channel ramp state: `code_now`, `code_tgt`, and the `last_hv`,
`last_vlow`, `last_vbias` dictionaries (initialised to NaN, line 198-200). -/
structure REnt : Type where
  ch : ℕ
  now : ℤ
  tgt : ℤ
  hv : Option ℚ
  vlow : Option ℚ
  vbias : Option ℚ
deriving DecidableEq

/-- One single-code move of `code_now` toward `code_tgt` (lines 213-220),
including the belt-and-braces overshoot clamps of the source. -/
def stepToward (now tgt : ℤ) : ℤ :=
  if tgt > now then
    let n := now + 1
    if n > tgt then tgt else n
  else
    let n := now - 1
    if n < tgt then tgt else n

/-- `any_pending()` (lines 202-206). -/
def anyPending (es : List REnt) : Bool :=
  es.any (fun e => e.now != e.tgt)

/-- One write: advance the entry by one code and store the hardware reading
(lines 213-225). -/
def applyWrite (readOf : ℕ → ℤ → Reading) (e : REnt) : REnt :=
  let n := stepToward e.now e.tgt
  let r := readOf e.ch n
  ⟨e.ch, n, e.tgt, r.1, r.2.1, r.2.2⟩

/-- One pass of the `for ch in ch_order` loop (lines 209-228).  `done` holds
the entries already processed in this pass; `any_pending` inside the sleep
condition sees the partially updated dictionary, exactly as the source does.
Returns the updated entries and the event trace of the pass. -/
def passAux (readOf : ℕ → ℤ → Reading) :
    List REnt → List REnt → List REnt × List Ev
  | done, [] => (done, [])
  | done, e :: rest =>
    if e.now = e.tgt then passAux readOf (done ++ [e]) rest
    else
      let e' := applyWrite readOf e
      let evs1 :=
        if 0 < INTER_DAC_WRITE_GAP_SEC ∧ anyPending (done ++ e' :: rest) then
          [Ev.write e.ch e'.now, Ev.sleep INTER_DAC_WRITE_GAP_SEC]
        else [Ev.write e.ch e'.now]
      let p := passAux readOf (done ++ [e']) rest
      (p.1, evs1 ++ p.2)

/-- Total remaining distance of all channels to their targets; each pass with
a pending channel strictly decreases it, so it bounds the number of passes. -/
def totalDist (es : List REnt) : ℕ :=
  (es.map (fun e => (e.tgt - e.now).natAbs)).sum

/-- The `while any_pending()` loop (lines 208-228), indexed by fuel.  The
wrapper `ramp_codes_round_robin` supplies fuel `totalDist es`, which is proven
sufficient (`rampGo_of_le_fuel`-style lemmas below), so the cutoff branch is
never taken on the loop's own inputs. -/
def rampGo (readOf : ℕ → ℤ → Reading) : ℕ → List REnt → List REnt × List Ev
  | 0, es => (es, [])
  | fuel + 1, es =>
    if anyPending es then
      let p := passAux readOf [] es
      let q := rampGo readOf fuel p.1
      (q.1, p.2 ++ q.2)
    else (es, [])

/-- `ramp_codes_round_robin(ch_order, code_start_by_ch, code_target_by_ch)`:
returns the final entries (final codes and last readings per channel) and the
full event trace. -/
def ramp_codes_round_robin (readOf : ℕ → ℤ → Reading) (es : List REnt) :
    List REnt × List Ev :=
  rampGo readOf (totalDist es) es

/-- The per-channel write sequence the ramp is expected to produce, indexed
by fuel for structural recursion. -/
def stepSeqGo : ℕ → ℤ → ℤ → List ℤ
  | 0, _, _ => []
  | n + 1, now, tgt =>
    if now = tgt then []
    else
      let m := stepToward now tgt
      m :: stepSeqGo n m tgt

/-- The single-channel write sequence from `now` to `tgt`: one entry per
single-code step, ending at `tgt`. -/
def stepSeq (now tgt : ℤ) : List ℤ :=
  stepSeqGo (tgt - now).natAbs now tgt

/-- The settled form of a ramp entry: a pending entry ends at its target with
the readings of its final apply; an entry already at its target is untouched. -/
def finalize (readOf : ℕ → ℤ → Reading) (e : REnt) : REnt :=
  if e.now = e.tgt then e
  else
    let r := readOf e.ch e.tgt
    ⟨e.ch, e.tgt, e.tgt, r.1, r.2.1, r.2.2⟩

/-- The codes written to channel `c` in an event trace, in order. -/
def chWrites (c : ℕ) (evs : List Ev) : List ℤ :=
  evs.filterMap (fun ev =>
    match ev with
    | Ev.write c' k => if c' = c then some k else none
    | Ev.sleep _ => none)

/-- All `(channel, code)` writes of an event trace, in order. -/
def writesOf (evs : List Ev) : List (ℕ × ℤ) :=
  evs.filterMap (fun ev =>
    match ev with
    | Ev.write c k => some (c, k)
    | Ev.sleep _ => none)

/-! ## Channel state store and one control-loop block
(source: biasAdj.py lines 344-523, the body of the `while True` loop) -/

/-- Per-channel state kept by `main`: `last_code_by_ch`, `vlow_ref_by_ch`,
`last_meas_vlow_by_ch`, `last_meas_hv_by_ch`, `last_meas_vbias_by_ch`
(lines 344-349).  `none` stands for NaN. -/
structure ChState : Type where
  last_code : ℤ
  vlow_ref : ℚ
  last_vlow : Option ℚ
  last_hv : Option ℚ
  last_vbias : Option ℚ
deriving DecidableEq

/-- One row of the environmental (BME) log: block average temperature, the
population variance of temperature (standing for the logged standard
deviation, see `pvariance`), average pressure, average humidity, and the used
sample count (lines 412-420). -/
structure EnvRow : Type where
  T_avg : ℚ
  T_var : ℚ
  P_avg : ℚ
  H_avg : ℚ
  n_samples : ℕ
deriving DecidableEq

/-- One row of the adjustment log (lines 505-515): channel, old and new code,
voltage before and after, the block's deltaT, and the reported high voltage
and effective bias (blank when NaN). -/
structure AdjRow : Type where
  ch : ℕ
  old_code : ℤ
  new_code : ℤ
  vlow_before : ℚ
  vlow_after : ℚ
  dT : ℚ
  hv : Option ℚ
  vbias : Option ℚ
deriving DecidableEq

/-- Result of one pass through the block loop body: the updated channel
states, the environmental row (none when the block was skipped before the
statistics were computed), the adjustment rows, and the ramp's event trace. -/
structure BlockOut : Type where
  states : List (ℕ × ChState)
  envRow : Option EnvRow
  adjRows : List AdjRow
  events : List Ev
deriving DecidableEq

/-- The rows of the block that survive the outlier filter (line 394). -/
def block_filtered (block_rows : List Row) : List Row :=
  (filter_temp_outliers true block_rows).1

/-- The filtered temperature samples (line 402). -/
def block_t_samples (block_rows : List Row) : List ℚ :=
  (block_filtered block_rows).map (fun r => r.1)

/-- `T_avg = mean(t_samples)` (line 406). -/
def block_Tavg (block_rows : List Row) : ℚ := mean (block_t_samples block_rows)

/-- The population variance of the block temperatures, standing for the
logged `T_std = pstdev(t_samples) if len > 1 else 0.0` (line 407); the
std-vs-threshold gate is embedded as variance vs squared threshold. -/
def block_Tvar (block_rows : List Row) : ℚ :=
  if 1 < (block_t_samples block_rows).length then pvariance (block_t_samples block_rows)
  else 0

/-- The per-block planning loop (lines 444-474): for each channel in order,
the target code with the anti-dither gates applied; a queued channel carries
`(channel, code_prev, code_tgt, vlow_before)`. -/
def block_pending (states : List (ℕ × ChState)) (dV : ℚ) :
    List (ℕ × ℤ × ℤ × ℚ) :=
  states.filterMap (fun p =>
    match planChannel MIN_STEP_CODES MIN_STEP_VOLTS p.2.vlow_ref dV
        p.2.last_code with
    | none => none
    | some code_tgt =>
      some (p.1, p.2.last_code, code_tgt,
        p.2.last_vlow.getD (code_to_vlow p.2.last_code)))

/-- The ramp work list built from the pending channels (lines 478-480). -/
def block_entries (pending : List (ℕ × ℤ × ℤ × ℚ)) : List REnt :=
  pending.map (fun q => ⟨q.1, q.2.1, q.2.2.1, none, none, none⟩)

/-- The channel-state update after the ramp (lines 489-503): the final code
is stored unconditionally, the stored after-voltage falls back to the
calibration model exactly when the measured low-side voltage is NaN. -/
def block_updateStates (states : List (ℕ × ChState)) (esF : List REnt) :
    List (ℕ × ChState) :=
  states.map (fun p =>
    match esF.find? (fun e => e.ch == p.1) with
    | none => p
    | some eF =>
      (p.1, ⟨eF.now, p.2.vlow_ref, some (eF.vlow.getD (code_to_vlow eF.now)),
        eF.hv, eF.vbias⟩))

/-- The adjustment-log rows of the block (lines 505-515), one per ramped
channel. -/
def block_adjRows (pending : List (ℕ × ℤ × ℤ × ℚ)) (esF : List REnt)
    (dT : ℚ) : List AdjRow :=
  pending.filterMap (fun q =>
    match esF.find? (fun e => e.ch == q.1) with
    | none => none
    | some eF =>
      some ⟨q.1, q.2.1, eF.now, q.2.2.2, eF.vlow.getD (code_to_vlow eF.now),
        dT, eF.hv, eF.vbias⟩)

/-- One iteration of the control loop over a collected block of samples
(lines 388-523).  The sensor and wall clock are outside the embedding: the
block's rows are the input.  The hardware collaborator is `readOf`. -/
def blockStep (readOf : ℕ → ℤ → Reading) (states : List (ℕ × ChState))
    (block_rows : List Row) : BlockOut :=
  -- `if not block_rows: continue` (lines 388-391)
  if block_rows.length = 0 then ⟨states, none, [], []⟩
  else
    -- `if used_count == 0: continue` (lines 397-400)
    if (block_filtered block_rows).length = 0 then ⟨states, none, [], []⟩
    else
      -- the BME row is written before the quality gates (lines 412-420)
      let env : Option EnvRow := some ⟨block_Tavg block_rows,
        block_Tvar block_rows,
        mean ((block_filtered block_rows).map (fun r => r.2.1)),
        mean ((block_filtered block_rows).map (fun r => r.2.2)),
        (block_filtered block_rows).length⟩
      -- quality gates (lines 425-433)
      if (block_filtered block_rows).length < MIN_SAMPLES_PER_BLOCK then
        ⟨states, env, [], []⟩
      else if T_STD_MAX_C ^ 2 < block_Tvar block_rows then ⟨states, env, [], []⟩
      else
        -- bias math and per-channel planning (lines 436-474)
        let dT := block_dT_of (block_Tavg block_rows)
        let pending := block_pending states (block_dV_of dT)
        -- apply updates in round robin slow ramp (lines 477-486)
        let out := ramp_codes_round_robin readOf (block_entries pending)
        -- log one row per changed channel and update tracking (lines 489-515)
        ⟨block_updateStates states out.1, env, block_adjRows pending out.1 dT,
          out.2⟩

/-! ## Test fixtures and further definitions used by the theorems -/

/-- The entrywise effect of one pass. -/
def stepEnt (readOf : ℕ → ℤ → Reading) (e : REnt) : REnt :=
  if e.now = e.tgt then e else applyWrite readOf e

/-- The writes of one pass, in order. -/
def passWrites (es : List REnt) : List (ℕ × ℤ) :=
  es.filterMap (fun e =>
    if e.now = e.tgt then none else some (e.ch, stepToward e.now e.tgt))

/-- The claim C4 example: channels 0 and 1 both ramped from code 300 to 280. -/
def rampExampleEntries : List REnt :=
  [⟨0, 300, 280, none, none, none⟩, ⟨1, 300, 280, none, none, none⟩]

/-- Event classifier: is this event a DAC write? -/
def isWrite : Ev → Bool
  | Ev.write _ _ => true
  | Ev.sleep _ => false

/-- Pattern `(write sleep)*`: an event list made of write-sleep pairs with
the configured gap. -/
def pairsOnly : List Ev → Bool
  | [] => true
  | Ev.write _ _ :: Ev.sleep g :: rest =>
      decide (g = INTER_DAC_WRITE_GAP_SEC) && pairsOnly rest
  | _ => false

/-- The claim as stated: every apply in the trace (the final one included) is
immediately followed by the configured delay. -/
def everyApplyDelayed (evs : List Ev) : Prop :=
  ∀ i : Fin evs.length, isWrite (evs.get i) = true →
    i.1 + 1 < evs.length ∧
    evs.getD (i.1 + 1) (Ev.sleep 0) = Ev.sleep INTER_DAC_WRITE_GAP_SEC

/-- A three-sample block: far below the 24-sample quality threshold. -/
def shortBlock : List Row := [(20, 1000, 50), (20, 1000, 50), (20, 1000, 50)]

/-- What claim C8 requires of an event: a write's code lies in [0, 1023]. -/
def writeCodeOk : Ev → Prop
  | Ev.write _ k => 0 ≤ k ∧ k ≤ 1023
  | Ev.sleep _ => True

/-- Bounds on the start and target codes of a list of ramp entries. -/
def entriesIn (lo hi : ℤ) (es : List REnt) : Prop :=
  ∀ e ∈ es, lo ≤ e.now ∧ e.now ≤ hi ∧ lo ≤ e.tgt ∧ e.tgt ≤ hi

/-- A block of 24 identical samples at 20.26 C: it passes both quality gates
and plans a 6-code move (753 to 747) for a channel referenced at
`code_to_vlow 753`. -/
def acceptBlock : List Row := List.replicate 24 ((2026 : ℚ) / 100, 1000, 50)

/-- A block like the claim C3 test block but with the nine low samples spread
over 19.96..20.04 C, so the MAD is nonzero and filtering actually engages. -/
def spreadBlockC3 : List Row :=
  [(1996/100, 1000, 50), (1997/100, 1000, 50), (1998/100, 1000, 50),
   (1999/100, 1000, 50), (2000/100, 1000, 50), (2001/100, 1000, 50),
   (2002/100, 1000, 50), (2003/100, 1000, 50), (2004/100, 1000, 50),
   (35, 1000, 50)]

/-! ## Basic lemmas -/

theorem clampZ_eq_max_min (x lo hi : ℤ) (h : lo ≤ hi) :
    clampZ x lo hi = max lo (min hi x) := by
  unfold clampZ
  split_ifs with h1 h2 <;> omega

theorem pyRound_intCast (c : ℤ) : pyRound (c : ℚ) = c := by
  unfold pyRound
  simp [Int.floor_intCast]

theorem vlow_to_code_nonneg (v : ℚ) : 0 ≤ vlow_to_code v := by
  unfold vlow_to_code
  exact le_max_left _ _

theorem vlow_to_code_le (v : ℚ) : vlow_to_code v ≤ 1023 := by
  unfold vlow_to_code
  simp only [max_le_iff]
  exact ⟨by norm_num, min_le_left _ _⟩

theorem plan_code_tgt_nonneg (vlow_ref dV : ℚ) (code_prev : ℤ) :
    0 ≤ plan_code_tgt vlow_ref dV code_prev := by
  unfold plan_code_tgt
  exact le_max_left _ _

theorem plan_code_tgt_le (vlow_ref dV : ℚ) (code_prev : ℤ) :
    plan_code_tgt vlow_ref dV code_prev ≤ 1023 := by
  unfold plan_code_tgt
  simp only [max_le_iff]
  exact ⟨by norm_num, min_le_left _ _⟩

/-! ## Claim C2: calibration round-trip -/

/-- For codes at least 10 the modeled voltage is strictly positive, so neither
clamp of the forward map fires. -/
theorem code_to_vlow_eq_of_ge_ten (c : ℤ) (h10 : 10 ≤ c) (h1023 : c ≤ 1023) :
    code_to_vlow c = VOFF + SPAN * ((c : ℚ) / 1023) := by
  unfold code_to_vlow
  have hmod : c % 1024 = c := Int.emod_eq_of_lt (by omega) (by omega)
  rw [hmod]
  have hc0 : (0 : ℚ) ≤ (c : ℚ) / 1023 := by positivity
  have hc1 : (c : ℚ) / 1023 ≤ 1 := by
    rw [div_le_one (by norm_num)]
    exact_mod_cast h1023
  have hmin : min 1 ((c : ℚ) / 1023) = (c : ℚ) / 1023 := min_eq_right hc1
  have hmax : max 0 ((c : ℚ) / 1023) = (c : ℚ) / 1023 := max_eq_right hc0
  rw [hmin, hmax]
  have hv : (0 : ℚ) ≤ VOFF + SPAN * ((c : ℚ) / 1023) := by
    have h10' : (10 : ℚ) ≤ (c : ℚ) := by exact_mod_cast h10
    have : VOFF + SPAN * ((10 : ℚ) / 1023) ≤ VOFF + SPAN * ((c : ℚ) / 1023) := by
      have hSPAN : (0 : ℚ) < SPAN := by norm_num [SPAN]
      have : (10 : ℚ) / 1023 ≤ (c : ℚ) / 1023 := by
        apply div_le_div_of_nonneg_right h10' (by norm_num)
      nlinarith
    have hbase : (0 : ℚ) ≤ VOFF + SPAN * ((10 : ℚ) / 1023) := by
      norm_num [VOFF, SPAN]
    linarith
  exact max_eq_right hv

/-- The round trip is the identity for codes in [10, 1023]. -/
theorem roundtrip_exact_of_ge_ten (c : ℤ) (h10 : 10 ≤ c) (h1023 : c ≤ 1023) :
    vlow_to_code (code_to_vlow c) = c := by
  rw [code_to_vlow_eq_of_ge_ten c h10 h1023]
  unfold vlow_to_code
  have hv : (0 : ℚ) ≤ VOFF + SPAN * ((c : ℚ) / 1023) := by
    have h := code_to_vlow_eq_of_ge_ten c h10 h1023
    unfold code_to_vlow at h
    have h10' : (10 : ℚ) ≤ (c : ℚ) := by exact_mod_cast h10
    have hSPAN : (0 : ℚ) < SPAN := by norm_num [SPAN]
    have hc : (10 : ℚ) / 1023 ≤ (c : ℚ) / 1023 := by
      apply div_le_div_of_nonneg_right h10' (by norm_num)
    have hbase : (0 : ℚ) ≤ VOFF + SPAN * ((10 : ℚ) / 1023) := by
      norm_num [VOFF, SPAN]
    nlinarith
  have hmax : max 0 (VOFF + SPAN * ((c : ℚ) / 1023)) = VOFF + SPAN * ((c : ℚ) / 1023) :=
    max_eq_right hv
  simp only [hmax]
  have hSPAN : (SPAN : ℚ) ≠ 0 := by norm_num [SPAN]
  have harg : ((VOFF + SPAN * ((c : ℚ) / 1023) - VOFF) / SPAN) * 1023 = (c : ℚ) := by
    field_simp
    ring
  rw [harg, pyRound_intCast]
  omega

/-- Claim C2 (amended): for every code c in [9, 1023], the calibration
round trip `vlow_to_code (code_to_vlow c)` is within one code of c (and is
exactly c for c in [10, 1023]). -/
theorem roundtrip_within_one (c : ℤ) (h9 : 9 ≤ c) (h1023 : c ≤ 1023) :
    |vlow_to_code (code_to_vlow c) - c| ≤ 1 := by
  rcases eq_or_lt_of_le h9 with h | h
  · have h9' : c = 9 := h.symm
    subst h9'
    have : vlow_to_code (code_to_vlow 9) = 10 :=
      of_decide_eq_true (by with_unfolding_all rfl)
    rw [this]
    decide
  · have h10 : 10 ≤ c := h
    rw [roundtrip_exact_of_ge_ten c h10 h1023]
    simp

theorem roundtrip_within_one_witness :
    (9 : ℤ) ≤ 500 ∧ (500 : ℤ) ≤ 1023 ∧ |vlow_to_code (code_to_vlow 500) - 500| ≤ 1 :=
  ⟨by decide, by decide, roundtrip_within_one 500 (by decide) (by decide)⟩

/-- Claim C2 (counterexample): at code 0 the forward map clamps the negative
modeled voltage to 0 and the round trip returns 10, which is not within one
code of 0. -/
theorem roundtrip_fails_at_zero :
    vlow_to_code (code_to_vlow 0) = 10 ∧ ¬ |vlow_to_code (code_to_vlow 0) - 0| ≤ 1 := by
  have h : vlow_to_code (code_to_vlow 0) = 10 :=
    of_decide_eq_true (by with_unfolding_all rfl)
  exact ⟨h, by rw [h]; decide⟩

/-! ## Claim C1: the compensation law -/

/-- The implementation's inverse equals the spec's inverse applied to the
zero-clamped voltage. -/
theorem vlow_to_code_eq_spec_inverse_max (v : ℚ) :
    vlow_to_code v = spec_inverse (max 0 v) := by
  unfold vlow_to_code spec_inverse
  rw [clampZ_eq_max_min _ _ _ (by norm_num)]

/-- Claim C1 (counterexample): for a channel whose reference voltage is 0, a
block at 25 C drives the target voltage negative; the implementation then
computes target code 10 (it inverts the voltage clamped at zero) while the
spec's written law computes 0, so the target code is not computed exactly as
the spec's law as stated. -/
theorem compensation_law_differs_from_spec :
    plan_code_tgt 0 (block_dV_of (block_dT_of 25)) 0 = 10 ∧
    spec_target_code 25 0 0 = 0 ∧
    plan_code_tgt 0 (block_dV_of (block_dT_of 25)) 0 ≠ spec_target_code 25 0 0 :=
  of_decide_eq_true (by with_unfolding_all rfl)

/-- Claim C1 (amended): the per-channel target code is computed exactly as the
spec's compensation law amended to invert the zero-clamped target voltage
(`inverse(max(0, target_voltage))`); and when the unclamped target is 500
codes away from the current code, the applied change is exactly
`MAX_CODES_STEP_PER_BLOCK = 120` codes in the direction of the target. -/
theorem compensation_law (T_avg vlow_ref : ℚ) (code_prev : ℤ) :
    plan_code_tgt vlow_ref (block_dV_of (block_dT_of T_avg)) code_prev =
      spec_target_code_amended T_avg vlow_ref code_prev ∧
    (0 ≤ code_prev → code_prev ≤ 1023 →
      (vlow_to_code (vlow_ref + block_dV_of (block_dT_of T_avg)) - code_prev = 500 →
        plan_code_tgt vlow_ref (block_dV_of (block_dT_of T_avg)) code_prev - code_prev = 120) ∧
      (vlow_to_code (vlow_ref + block_dV_of (block_dT_of T_avg)) - code_prev = -500 →
        plan_code_tgt vlow_ref (block_dV_of (block_dT_of T_avg)) code_prev - code_prev = -120)) := by
  constructor
  · have hcl : ∀ x : ℤ, clampZ x 0 1023 = max 0 (min 1023 x) := fun x =>
      clampZ_eq_max_min x 0 1023 (by norm_num)
    simp only [plan_code_tgt, spec_target_code_amended, block_dV_of, block_dT_of,
      vlow_to_code_eq_spec_inverse_max, hcl]
  · intro h0 h1
    have htl := vlow_to_code_le (vlow_ref + block_dV_of (block_dT_of T_avg))
    have htn := vlow_to_code_nonneg (vlow_ref + block_dV_of (block_dT_of T_avg))
    constructor
    · intro h500
      simp only [plan_code_tgt, clampZ, MAX_CODES_STEP_PER_BLOCK]
      split_ifs <;> omega
    · intro h500
      simp only [plan_code_tgt, clampZ, MAX_CODES_STEP_PER_BLOCK]
      split_ifs <;> omega

theorem compensation_law_witness :
    plan_code_tgt (code_to_vlow 500) (block_dV_of (block_dT_of 20)) 0 - 0 = 120 := by
  have h := (compensation_law 20 (code_to_vlow 500) 0).2 (by decide) (by decide)
  exact h.1 (of_decide_eq_true (by with_unfolding_all rfl))

/-! ## Claim C5: the anti-dither gate -/

/-- Claim C5: a computed target code passes the anti-dither gate (is queued
for application) iff BOTH the code move is at least `minStepCodes` AND the
modeled voltage move is at least `minStepVolts`; otherwise it is discarded.
In particular a target exactly `minStepCodes - 1` codes away is discarded,
and one exactly `minStepCodes` away whose voltage move meets the voltage
threshold is applied. -/
theorem anti_dither_gate (minStepCodes : ℤ) (minStepVolts : ℚ)
    (vlow_ref dV : ℚ) (code_prev : ℤ) :
    (planChannel minStepCodes minStepVolts vlow_ref dV code_prev =
        some (plan_code_tgt vlow_ref dV code_prev) ↔
      minStepCodes ≤ |plan_code_tgt vlow_ref dV code_prev - code_prev| ∧
      minStepVolts ≤ |code_to_vlow (plan_code_tgt vlow_ref dV code_prev) -
        code_to_vlow code_prev|) ∧
    (planChannel minStepCodes minStepVolts vlow_ref dV code_prev = none ∨
      planChannel minStepCodes minStepVolts vlow_ref dV code_prev =
        some (plan_code_tgt vlow_ref dV code_prev)) ∧
    (|plan_code_tgt vlow_ref dV code_prev - code_prev| = minStepCodes - 1 →
      planChannel minStepCodes minStepVolts vlow_ref dV code_prev = none) ∧
    (|plan_code_tgt vlow_ref dV code_prev - code_prev| = minStepCodes →
      minStepVolts ≤ |code_to_vlow (plan_code_tgt vlow_ref dV code_prev) -
        code_to_vlow code_prev| →
      planChannel minStepCodes minStepVolts vlow_ref dV code_prev =
        some (plan_code_tgt vlow_ref dV code_prev)) := by
  refine ⟨?_, ?_, ?_, ?_⟩
  · simp only [planChannel]
    split_ifs with hc hv
    · simp only [false_iff]
      intro h
      exact absurd h.1 (not_le.mpr hc)
    · simp only [false_iff]
      intro h
      exact absurd h.2 (not_le.mpr hv)
    · simp only [true_iff]
      exact ⟨not_lt.mp hc, not_lt.mp hv⟩
  · simp only [planChannel]
    split_ifs <;> simp
  · intro h
    simp only [planChannel]
    split_ifs with hc hv
    · rfl
    · rfl
    · omega
  · intro hc hv
    simp only [planChannel]
    split_ifs with h1 h2
    · omega
    · exact absurd hv (not_le.mpr h2)
    · rfl

theorem anti_dither_gate_witness :
    planChannel 6 MIN_STEP_VOLTS (code_to_vlow 300)
      (code_to_vlow 295 - code_to_vlow 300) 300 = none ∧
    planChannel 6 MIN_STEP_VOLTS (code_to_vlow 300)
      (code_to_vlow 294 - code_to_vlow 300) 300 = some 294 := by
  constructor
  · exact (anti_dither_gate 6 MIN_STEP_VOLTS (code_to_vlow 300)
      (code_to_vlow 295 - code_to_vlow 300) 300).2.2.1
      (of_decide_eq_true (by with_unfolding_all rfl))
  · have h : plan_code_tgt (code_to_vlow 300) (code_to_vlow 294 - code_to_vlow 300) 300 = 294 :=
      of_decide_eq_true (by with_unfolding_all rfl)
    have := (anti_dither_gate 6 MIN_STEP_VOLTS (code_to_vlow 300)
      (code_to_vlow 294 - code_to_vlow 300) 300).2.2.2
      (of_decide_eq_true (by with_unfolding_all rfl))
      (of_decide_eq_true (by with_unfolding_all rfl))
    rw [h] at this
    exact this

/-! ## Claims C3 and C10: the outlier filter -/

theorem splitByDev_fst_sublist (t_med thresh : ℚ) (l : List Row) :
    (splitByDev t_med thresh l).1.Sublist l := by
  induction l with
  | nil => simp [splitByDev]
  | cons r rs ih =>
    simp only [splitByDev]
    split_ifs with h
    · exact ih.cons₂ r
    · exact ih.cons r

theorem splitByDev_length (t_med thresh : ℚ) (l : List Row) :
    (splitByDev t_med thresh l).1.length + (splitByDev t_med thresh l).2 = l.length := by
  induction l with
  | nil => simp [splitByDev]
  | cons r rs ih =>
    simp only [splitByDev]
    split_ifs with h
    · simpa using by omega
    · simpa using by omega

theorem splitByDev_mem (t_med thresh : ℚ) (l : List Row) (r : Row)
    (hmem : r ∈ l) (hkeep : |r.1 - t_med| ≤ thresh) :
    r ∈ (splitByDev t_med thresh l).1 := by
  induction l with
  | nil => cases hmem
  | cons a rs ih =>
    simp only [splitByDev]
    rcases List.mem_cons.mp hmem with h | h
    · subst h
      rw [if_pos hkeep]
      exact List.mem_cons_self _ _
    · split_ifs with ha
      · exact List.mem_cons_of_mem _ (ih h)
      · exact ih h

/-- The median of a non-empty list is at least one of its elements. -/
theorem exists_le_median (l : List ℚ) (hne : l ≠ []) : ∃ x ∈ l, x ≤ median l := by
  have hperm : List.Perm (List.insertionSort (· ≤ ·) l) l := List.perm_insertionSort _ l
  have hlen : (List.insertionSort (· ≤ ·) l).length = l.length := hperm.length_eq
  have hsort : (List.insertionSort (· ≤ ·) l).Sorted (· ≤ ·) :=
    List.sorted_insertionSort _ l
  have hn : 0 < l.length := List.length_pos.mpr hne
  simp only [median]
  split_ifs with hpar
  · -- odd length: the median is an element
    have hk : l.length / 2 < (List.insertionSort (· ≤ ·) l).length := by omega
    have hget : (List.insertionSort (· ≤ ·) l).getD (l.length / 2) 0 =
        (List.insertionSort (· ≤ ·) l).get ⟨l.length / 2, hk⟩ := by
      simp [List.getD_eq_getElem?_getD, List.getElem?_eq_getElem hk]
    refine ⟨(List.insertionSort (· ≤ ·) l).get ⟨l.length / 2, hk⟩, ?_, ?_⟩
    · rw [← hperm.mem_iff]
      exact List.get_mem _ _ _
    · exact le_of_eq hget.symm
  · -- even length: the median is the average of two elements, the smaller
    -- of which is below it
    have hn2 : 2 ≤ l.length := by omega
    have hk2 : l.length / 2 < (List.insertionSort (· ≤ ·) l).length := by omega
    have hk1 : l.length / 2 - 1 < (List.insertionSort (· ≤ ·) l).length := by omega
    have hget1 : (List.insertionSort (· ≤ ·) l).getD (l.length / 2 - 1) 0 =
        (List.insertionSort (· ≤ ·) l).get ⟨l.length / 2 - 1, hk1⟩ := by
      simp [List.getD_eq_getElem?_getD, List.getElem?_eq_getElem hk1]
    have hget2 : (List.insertionSort (· ≤ ·) l).getD (l.length / 2) 0 =
        (List.insertionSort (· ≤ ·) l).get ⟨l.length / 2, hk2⟩ := by
      simp [List.getD_eq_getElem?_getD, List.getElem?_eq_getElem hk2]
    have hab : (List.insertionSort (· ≤ ·) l).get ⟨l.length / 2 - 1, hk1⟩ ≤
        (List.insertionSort (· ≤ ·) l).get ⟨l.length / 2, hk2⟩ := by
      rcases Nat.eq_or_lt_of_le (Nat.le_of_lt_succ (by omega :
          l.length / 2 - 1 < l.length / 2 + 1)) with h | h
      · exact le_of_eq (congrArg _ (Fin.ext h))
      · exact hsort.rel_get_of_lt h
    refine ⟨(List.insertionSort (· ≤ ·) l).get ⟨l.length / 2 - 1, hk1⟩, ?_, ?_⟩
    · rw [← hperm.mem_iff]
      exact List.get_mem _ _ _
    · rw [hget1, hget2]
      linarith

/-- The outlier filter on a non-empty block keeps a non-empty subsequence of
its input and counts what it drops. -/
theorem filter_outliers_keeps_rows (enable : Bool) (block_rows : List Row)
    (hne : block_rows ≠ []) :
    (filter_temp_outliers enable block_rows).1 ≠ [] ∧
    (filter_temp_outliers enable block_rows).1.Sublist block_rows ∧
    (filter_temp_outliers enable block_rows).2 =
      block_rows.length - (filter_temp_outliers enable block_rows).1.length := by
  simp only [filter_temp_outliers]
  split_ifs with h1 h2
  · exact ⟨hne, List.Sublist.refl _, by simp⟩
  · exact ⟨hne, List.Sublist.refl _, by simp⟩
  · -- filtering branch: the thresholds are positive and a row at minimal
    -- absolute deviation survives
    set temps := block_rows.map (fun r => r.1) with htemps
    set t_med := median temps with htmed
    set abs_dev := temps.map (fun t => |t - t_med|) with habsdev
    set mad := median abs_dev with hmad
    have hmadpos : 1 / 10 ^ 9 < mad := not_le.mp h2
    have hth : mad < OUTLIER_MAD_Z * ((14826 / 10 ^ 4) * mad) := by
      have h0 : (0 : ℚ) < mad := lt_trans (by norm_num) hmadpos
      have : (1 : ℚ) * mad < (51891 / 10 ^ 4) * mad := by
        apply mul_lt_mul_of_pos_right _ h0
        norm_num
      calc mad = 1 * mad := (one_mul mad).symm
        _ < (51891 / 10 ^ 4) * mad := this
        _ = OUTLIER_MAD_Z * ((14826 / 10 ^ 4) * mad) := by
            norm_num [OUTLIER_MAD_Z]
            ring
    have habs_ne : abs_dev ≠ [] := by
      simp only [habsdev, htemps]
      intro hcon
      apply hne
      simpa using hcon
    obtain ⟨x, hxmem, hxle⟩ := exists_le_median abs_dev habs_ne
    obtain ⟨t, htmem, hteq⟩ := List.mem_map.mp hxmem
    obtain ⟨r, hrmem, hreq⟩ := List.mem_map.mp htmem
    have hkeep : |r.1 - t_med| ≤ OUTLIER_MAD_Z * ((14826 / 10 ^ 4) * mad) := by
      rw [← hmad] at hxle
      rw [hreq, hteq]
      exact le_of_lt (lt_of_le_of_lt hxle hth)
    refine ⟨?_, splitByDev_fst_sublist _ _ _, ?_⟩
    · intro hcon
      have := splitByDev_mem t_med (OUTLIER_MAD_Z * ((14826 / 10 ^ 4) * mad))
        block_rows r hrmem hkeep
      rw [hcon] at this
      cases this
    · have := splitByDev_length t_med (OUTLIER_MAD_Z * ((14826 / 10 ^ 4) * mad))
        block_rows
      omega

/-- Claim C10: for every non-empty block, the outlier filter returns a
non-empty subsequence of its input, and the removed count is the input length
minus the output length. -/
theorem outlier_filter_nonempty (enable : Bool) (block_rows : List Row)
    (hne : block_rows ≠ []) :
    (filter_temp_outliers enable block_rows).1 ≠ [] ∧
    (filter_temp_outliers enable block_rows).1.Sublist block_rows ∧
    (filter_temp_outliers enable block_rows).2 =
      block_rows.length - (filter_temp_outliers enable block_rows).1.length :=
  filter_outliers_keeps_rows enable block_rows hne

theorem outlier_filter_nonempty_witness :
    (filter_temp_outliers true [((20 : ℚ), 1000, 50)]).1 ≠ [] ∧
    (filter_temp_outliers true [((20 : ℚ), 1000, 50)]).1.Sublist
      [((20 : ℚ), 1000, 50)] ∧
    (filter_temp_outliers true [((20 : ℚ), 1000, 50)]).2 =
      1 - (filter_temp_outliers true [((20 : ℚ), 1000, 50)]).1.length := by
  have h := outlier_filter_nonempty true [((20 : ℚ), 1000, 50)]
    (by simp)
  simpa using h

/-- Claim C3 (counterexample): on the claimed input — nine samples at exactly
20.00 C plus one at 35.00 C, filter enabled — the filter does NOT remove the
outlier: the absolute deviations are nine zeros and one 15, their median (the
MAD) is 0, and the `mad <= 1e-9` degeneracy guard passes the block through
unchanged, returning all 10 samples with removed_count 0, not 9 samples with
removed_count 1. -/
theorem outlier_not_removed_at_constant_block :
    filter_temp_outliers true testBlockC3 = (testBlockC3, 0) ∧
    testBlockC3.length = 10 ∧
    ¬ ((filter_temp_outliers true testBlockC3).1 = testBlockC3.take 9 ∧
       (filter_temp_outliers true testBlockC3).2 = 1) :=
  of_decide_eq_true (by with_unfolding_all rfl)

/-- Claim C3 (amended): on the block of nine samples at 20.00 C plus one at
35.00 C the filter retains all 10 samples with removed_count 0 in every
configuration — enabled (the zero MAD triggers the degeneracy guard),
disabled, and on a block shorter than `OUTLIER_MIN_POINTS`; the 35.00 C
outlier is removed (9 samples kept, removed_count 1) only when the block's
MAD is nonzero, e.g. with the nine low samples spread over 19.96..20.04 C. -/
theorem outlier_filter_behaviour :
    filter_temp_outliers true testBlockC3 = (testBlockC3, 0) ∧
    filter_temp_outliers false testBlockC3 = (testBlockC3, 0) ∧
    filter_temp_outliers true (testBlockC3.take 6) = (testBlockC3.take 6, 0) ∧
    filter_temp_outliers true spreadBlockC3 = (spreadBlockC3.take 9, 1) :=
  of_decide_eq_true (by with_unfolding_all rfl)

/-! ## Ramp lemmas (claims C4, C7, C8) -/

theorem stepToward_eq (now tgt : ℤ) (h : now ≠ tgt) :
    stepToward now tgt = if tgt > now then now + 1 else now - 1 := by
  simp only [stepToward]
  split_ifs <;> omega

theorem stepToward_dist (now tgt : ℤ) (h : now ≠ tgt) :
    (tgt - stepToward now tgt).natAbs + 1 = (tgt - now).natAbs := by
  rw [stepToward_eq now tgt h]
  split_ifs with h1 <;> omega

theorem stepToward_between (now tgt : ℤ) (h : now ≠ tgt) :
    min now tgt ≤ stepToward now tgt ∧ stepToward now tgt ≤ max now tgt := by
  rw [stepToward_eq now tgt h]
  split_ifs with h1 <;> omega

theorem stepEnt_ch (readOf : ℕ → ℤ → Reading) (e : REnt) :
    (stepEnt readOf e).ch = e.ch := by
  unfold stepEnt applyWrite
  split_ifs <;> rfl

theorem stepEnt_tgt (readOf : ℕ → ℤ → Reading) (e : REnt) :
    (stepEnt readOf e).tgt = e.tgt := by
  unfold stepEnt applyWrite
  split_ifs <;> rfl

theorem passAux_fst (readOf : ℕ → ℤ → Reading) (rest done : List REnt) :
    (passAux readOf done rest).1 = done ++ rest.map (stepEnt readOf) := by
  induction rest generalizing done with
  | nil => simp [passAux]
  | cons e rs ih =>
    simp only [passAux]
    split_ifs with h <;> rw [ih] <;> simp [stepEnt, h]

theorem writesOf_append (evs1 evs2 : List Ev) :
    writesOf (evs1 ++ evs2) = writesOf evs1 ++ writesOf evs2 := by
  unfold writesOf
  exact List.filterMap_append _ _ _

theorem passAux_writes (readOf : ℕ → ℤ → Reading) (rest done : List REnt) :
    writesOf (passAux readOf done rest).2 = passWrites rest := by
  induction rest generalizing done with
  | nil => simp [passAux, passWrites, writesOf]
  | cons e rs ih =>
    simp only [passAux, passWrites]
    split_ifs with h h2
    · rw [List.filterMap_cons]
      simp only [h, if_pos rfl]
      exact ih _
    · simp only [writesOf_append, ih _]
      simp [writesOf, passWrites, h, applyWrite]
    · simp only [writesOf_append, ih _]
      simp [writesOf, passWrites, h, applyWrite]

theorem totalDist_map_le (readOf : ℕ → ℤ → Reading) (es : List REnt) :
    totalDist (es.map (stepEnt readOf)) ≤ totalDist es := by
  induction es with
  | nil => simp [totalDist]
  | cons e rs ih =>
    simp only [totalDist, List.map_cons, List.sum_cons] at ih ⊢
    have he : ((stepEnt readOf e).tgt - (stepEnt readOf e).now).natAbs ≤
        (e.tgt - e.now).natAbs := by
      unfold stepEnt
      split_ifs with h
      · exact le_refl _
      · have := stepToward_dist e.now e.tgt h
        simp only [applyWrite]
        omega
    omega

theorem totalDist_map_lt (readOf : ℕ → ℤ → Reading) (es : List REnt)
    (h : anyPending es = true) :
    totalDist (es.map (stepEnt readOf)) < totalDist es := by
  induction es with
  | nil => simp [anyPending] at h
  | cons e rs ih =>
    simp only [anyPending, List.any_cons, Bool.or_eq_true, bne_iff_ne] at h
    simp only [totalDist, List.map_cons, List.sum_cons]
    rcases h with h | h
    · have he : ((stepEnt readOf e).tgt - (stepEnt readOf e).now).natAbs <
          (e.tgt - e.now).natAbs := by
        unfold stepEnt
        rw [if_neg h]
        have := stepToward_dist e.now e.tgt h
        simp only [applyWrite]
        omega
      have := totalDist_map_le readOf rs
      simp only [totalDist] at this ⊢
      omega
    · have := ih h
      have he : ((stepEnt readOf e).tgt - (stepEnt readOf e).now).natAbs ≤
          (e.tgt - e.now).natAbs := by
        unfold stepEnt
        split_ifs with hh
        · exact le_refl _
        · have := stepToward_dist e.now e.tgt hh
          simp only [applyWrite]
          omega
      simp only [totalDist] at this ⊢
      omega

theorem anyPending_eq_false_iff (es : List REnt) :
    anyPending es = false ↔ ∀ e ∈ es, e.now = e.tgt := by
  unfold anyPending
  simp

theorem finalize_stepEnt (readOf : ℕ → ℤ → Reading) (e : REnt) :
    finalize readOf (stepEnt readOf e) = finalize readOf e := by
  unfold stepEnt
  split_ifs with h
  · rfl
  · unfold finalize applyWrite
    by_cases hm : stepToward e.now e.tgt = e.tgt
    · simp [hm, h]
    · simp [hm, h]

theorem totalDist_eq_zero_all_done (es : List REnt) (h : totalDist es = 0) :
    ∀ e ∈ es, e.now = e.tgt := by
  intro e he
  unfold totalDist at h
  have hmem : (e.tgt - e.now).natAbs ∈ es.map (fun e => (e.tgt - e.now).natAbs) :=
    List.mem_map.mpr ⟨e, he, rfl⟩
  have hz : (e.tgt - e.now).natAbs = 0 := by
    by_contra hz
    have hpos : 0 < (e.tgt - e.now).natAbs := Nat.pos_of_ne_zero hz
    have := List.single_le_sum (fun x _ => Nat.zero_le x) _ hmem
    omega
  omega

theorem rampGo_fst (readOf : ℕ → ℤ → Reading) (fuel : ℕ) (es : List REnt)
    (hfuel : totalDist es ≤ fuel) :
    (rampGo readOf fuel es).1 = es.map (finalize readOf) := by
  induction fuel generalizing es with
  | zero =>
    have hall := totalDist_eq_zero_all_done es (by omega)
    simp only [rampGo]
    rw [List.map_congr_left (fun e he => ?_)]
    · exact (List.map_id es).symm
    · unfold finalize
      rw [if_pos (hall e he)]
      rfl
  | succ n ih =>
    simp only [rampGo]
    split_ifs with h
    · rw [passAux_fst]
      simp only [List.nil_append]
      rw [ih _ ?_]
      · rw [List.map_map]
        exact List.map_congr_left (fun e _ => finalize_stepEnt readOf e)
      · have := totalDist_map_lt readOf es h
        omega
    · have hall := (anyPending_eq_false_iff es).mp (by simpa using h)
      rw [List.map_congr_left (fun e he => ?_)]
      · exact (List.map_id es).symm
      · unfold finalize
        rw [if_pos (hall e he)]
        rfl

theorem chWrites_eq_writesOf (c : ℕ) (evs : List Ev) :
    chWrites c evs =
      (writesOf evs).filterMap (fun p => if p.1 = c then some p.2 else none) := by
  unfold chWrites writesOf
  rw [List.filterMap_filterMap]
  apply List.filterMap_congr
  intro ev _
  cases ev with
  | write c' k => simp [Option.bind]
  | sleep g => simp [Option.bind]

theorem chWrites_append (c : ℕ) (evs1 evs2 : List Ev) :
    chWrites c (evs1 ++ evs2) = chWrites c evs1 ++ chWrites c evs2 := by
  unfold chWrites
  exact List.filterMap_append _ _ _

theorem chWrites_pass_of_not_mem (readOf : ℕ → ℤ → Reading) (c : ℕ)
    (es : List REnt) (h : ∀ e' ∈ es, e'.ch ≠ c) (done : List REnt) :
    chWrites c (passAux readOf done es).2 = [] := by
  rw [chWrites_eq_writesOf, passAux_writes]
  rw [List.filterMap_eq_nil_iff]
  intro p hp
  unfold passWrites at hp
  obtain ⟨e, hmem, heq⟩ := List.mem_filterMap.mp hp
  by_cases hd : e.now = e.tgt
  · rw [if_pos hd] at heq
    cases heq
  · rw [if_neg hd] at heq
    cases heq
    simp only
    rw [if_neg (h e hmem)]

/-- Unfolding one entry of `passWrites`. -/
theorem passWrites_cons (e : REnt) (rs : List REnt) :
    passWrites (e :: rs) =
      (if e.now = e.tgt then [] else [(e.ch, stepToward e.now e.tgt)]) ++ passWrites rs := by
  unfold passWrites
  rw [List.filterMap_cons]
  split_ifs with hd <;> simp

theorem filterMap_passWrites_eq_nil (c : ℕ) (es : List REnt)
    (h : ∀ e' ∈ es, e'.ch ≠ c) :
    (passWrites es).filterMap (fun p => if p.1 = c then some p.2 else none) = [] := by
  rw [List.filterMap_eq_nil_iff]
  intro p hp
  unfold passWrites at hp
  obtain ⟨e', hmem', heq⟩ := List.mem_filterMap.mp hp
  by_cases hd' : e'.now = e'.tgt
  · rw [if_pos hd'] at heq
    cases heq
  · rw [if_neg hd'] at heq
    cases heq
    simp only
    rw [if_neg (h e' hmem')]

/-- With channel names unique, the writes of one pass on a given channel are
exactly that channel's single step (or nothing when it is already done). -/
theorem filterMap_passWrites (es : List REnt) :
    ∀ e ∈ es, (es.map REnt.ch).Nodup →
      (passWrites es).filterMap (fun p => if p.1 = e.ch then some p.2 else none) =
        if e.now = e.tgt then [] else [stepToward e.now e.tgt] := by
  induction es with
  | nil =>
    intro e hmem
    cases hmem
  | cons a rs ih =>
    intro e hmem hnd
    simp only [List.map_cons, List.nodup_cons] at hnd
    rw [passWrites_cons, List.filterMap_append]
    rcases List.mem_cons.mp hmem with h | h
    · subst h
      rw [filterMap_passWrites_eq_nil e.ch rs (fun e' he' hcon =>
        hnd.1 (hcon ▸ List.mem_map.mpr ⟨e', he', rfl⟩))]
      rw [List.append_nil]
      by_cases hd : e.now = e.tgt
      · simp [hd]
      · simp [hd]
    · have hne : a.ch ≠ e.ch := fun hcon =>
        hnd.1 (hcon ▸ List.mem_map.mpr ⟨e, h, rfl⟩)
      have hhead : (if a.now = a.tgt then []
          else [(a.ch, stepToward a.now a.tgt)]).filterMap
          (fun p => if p.1 = e.ch then some p.2 else none) = [] := by
        split_ifs <;> simp [hne]
      rw [hhead, List.nil_append]
      exact ih e h hnd.2

theorem chWrites_pass (readOf : ℕ → ℤ → Reading) (es : List REnt) (e : REnt)
    (hmem : e ∈ es) (hnd : (es.map REnt.ch).Nodup) (done : List REnt) :
    chWrites e.ch (passAux readOf done es).2 =
      if e.now = e.tgt then [] else [stepToward e.now e.tgt] := by
  rw [chWrites_eq_writesOf, passAux_writes]
  exact filterMap_passWrites es e hmem hnd

theorem stepSeqGo_of_le (n m : ℕ) (now tgt : ℤ)
    (hn : (tgt - now).natAbs ≤ n) (hm : (tgt - now).natAbs ≤ m) :
    stepSeqGo n now tgt = stepSeqGo m now tgt := by
  induction n generalizing m now with
  | zero =>
    have : now = tgt := by omega
    subst this
    cases m with
    | zero => rfl
    | succ m' => simp [stepSeqGo]
  | succ n' ih =>
    cases m with
    | zero =>
      have : now = tgt := by omega
      subst this
      simp [stepSeqGo]
    | succ m' =>
      simp only [stepSeqGo]
      by_cases hd : now = tgt
      · simp [hd]
      · rw [if_neg hd, if_neg hd]
        have hdist := stepToward_dist now tgt hd
        rw [ih m' (stepToward now tgt) (by omega) (by omega)]

theorem stepSeq_cons (now tgt : ℤ) (h : now ≠ tgt) :
    stepSeq now tgt = stepToward now tgt :: stepSeq (stepToward now tgt) tgt := by
  unfold stepSeq
  have hdist := stepToward_dist now tgt h
  have h1 : (tgt - now).natAbs = ((tgt - stepToward now tgt).natAbs + 1) := by omega
  rw [h1]
  simp only [stepSeqGo]
  rw [if_neg h]

theorem stepSeq_nil (tgt : ℤ) : stepSeq tgt tgt = [] := by
  unfold stepSeq
  simp [stepSeqGo]

/-- The number of single-step writes from `now` to `tgt` is exactly the
distance. -/
theorem stepSeq_length (now tgt : ℤ) :
    (stepSeq now tgt).length = (tgt - now).natAbs := by
  generalize hgen : (tgt - now).natAbs = d
  induction d generalizing now with
  | zero =>
    have : now = tgt := by omega
    subst this
    rw [stepSeq_nil]
    rfl
  | succ d' ih =>
    have hne : now ≠ tgt := by omega
    rw [stepSeq_cons now tgt hne]
    have hdist := stepToward_dist now tgt hne
    simp only [List.length_cons]
    rw [ih _ (by omega)]

/-- Every write of the single-channel sequence stays between start and
target: the ramp never overshoots. -/
theorem stepSeq_mem_between (now tgt : ℤ) (x : ℤ) (hx : x ∈ stepSeq now tgt) :
    min now tgt ≤ x ∧ x ≤ max now tgt := by
  generalize hgen : (tgt - now).natAbs = d
  induction d generalizing now with
  | zero =>
    have : now = tgt := by omega
    subst this
    rw [stepSeq_nil] at hx
    cases hx
  | succ d' ih =>
    have hne : now ≠ tgt := by omega
    rw [stepSeq_cons now tgt hne] at hx
    have hbet := stepToward_between now tgt hne
    rcases List.mem_cons.mp hx with h | h
    · subst h
      exact hbet
    · have hdist := stepToward_dist now tgt hne
      have := ih (stepToward now tgt) h (by omega)
      have hst := stepToward_eq now tgt hne
      constructor
      · rcases this with ⟨h1, _⟩
        split_ifs at hst <;> omega
      · rcases this with ⟨_, h2⟩
        split_ifs at hst <;> omega

/-- Each successive write moves by exactly one code and strictly toward the
target. -/
theorem stepSeq_chain (now tgt : ℤ) :
    List.Chain (fun a b => (b - a).natAbs = 1 ∧ (tgt - b).natAbs < (tgt - a).natAbs)
      now (stepSeq now tgt) := by
  generalize hgen : (tgt - now).natAbs = d
  induction d generalizing now with
  | zero =>
    have : now = tgt := by omega
    subst this
    rw [stepSeq_nil]
    exact List.Chain.nil
  | succ d' ih =>
    have hne : now ≠ tgt := by omega
    rw [stepSeq_cons now tgt hne]
    have hdist := stepToward_dist now tgt hne
    have hst := stepToward_eq now tgt hne
    refine List.Chain.cons ⟨?_, ?_⟩ (ih _ (by omega))
    · split_ifs at hst <;> omega
    · omega

/-- The single-channel write sequence ends at the target. -/
theorem stepSeq_getLast (now tgt : ℤ) (h : now ≠ tgt) :
    (stepSeq now tgt).getLast? = some tgt := by
  generalize hgen : (tgt - now).natAbs = d
  induction d generalizing now with
  | zero => omega
  | succ d' ih =>
    rw [stepSeq_cons now tgt h]
    have hdist := stepToward_dist now tgt h
    by_cases hm : stepToward now tgt = tgt
    · have : stepSeq (stepToward now tgt) tgt = [] := by rw [hm]; exact stepSeq_nil tgt
      rw [this]
      simp [hm]
    · have := ih (stepToward now tgt) hm (by omega)
      rw [List.getLast?_cons, this]
      rfl

theorem anyPending_false_of_totalDist_zero (es : List REnt)
    (h : totalDist es = 0) : anyPending es = false := by
  rw [anyPending_eq_false_iff]
  exact totalDist_eq_zero_all_done es h

/-- The full per-channel write trace of the ramp loop: each channel's writes
are exactly its single-step sequence toward its target. -/
theorem rampGo_chWrites (readOf : ℕ → ℤ → Reading) (fuel : ℕ) (es : List REnt)
    (hfuel : totalDist es ≤ fuel) (hnd : (es.map REnt.ch).Nodup) :
    ∀ e ∈ es, chWrites e.ch (rampGo readOf fuel es).2 = stepSeq e.now e.tgt := by
  induction fuel generalizing es with
  | zero =>
    intro e hmem
    have hall := totalDist_eq_zero_all_done es (by omega)
    simp only [rampGo]
    have := hall e hmem
    rw [this, stepSeq_nil]
    rfl
  | succ n ih =>
    intro e hmem
    simp only [rampGo]
    split_ifs with h
    · rw [chWrites_append]
      rw [chWrites_pass readOf es e hmem hnd []]
      rw [passAux_fst, List.nil_append]
      have hnd' : ((es.map (stepEnt readOf)).map REnt.ch).Nodup := by
        rw [List.map_map]
        have : (es.map (REnt.ch ∘ stepEnt readOf)) = es.map REnt.ch :=
          List.map_congr_left (fun e _ => stepEnt_ch readOf e)
        rw [this]
        exact hnd
      have hfuel' : totalDist (es.map (stepEnt readOf)) ≤ n := by
        have := totalDist_map_lt readOf es h
        omega
      have hrec := ih (es.map (stepEnt readOf)) hfuel' hnd'
        (stepEnt readOf e) (List.mem_map.mpr ⟨e, hmem, rfl⟩)
      rw [stepEnt_ch] at hrec
      rw [hrec]
      by_cases hd : e.now = e.tgt
      · rw [if_pos hd, List.nil_append]
        unfold stepEnt
        rw [if_pos hd]
      · rw [if_neg hd]
        unfold stepEnt
        rw [if_neg hd]
        unfold applyWrite
        simp only
        rw [stepSeq_cons e.now e.tgt hd]
        rfl
    · have hall := (anyPending_eq_false_iff es).mp (by simpa using h)
      rw [hall e hmem, stepSeq_nil]
      rfl

/-- Claim C4: for every channel set with unique channel names, the round-robin
ramp (i) ends with every channel's code equal to its target, each ramped
channel carrying the readings of its final apply; (ii) issues on each channel
exactly `|target - start|` writes, namely the single-step sequence
`stepSeq start target`, whose length is the distance, whose successive codes
move by exactly one code strictly toward the target, which never leaves the
interval between start and target, and which ends at the target. -/
theorem ramp_round_robin_correct (readOf : ℕ → ℤ → Reading) (es : List REnt)
    (hnd : (es.map REnt.ch).Nodup) :
    (ramp_codes_round_robin readOf es).1 = es.map (finalize readOf) ∧
    ∀ e ∈ es,
      chWrites e.ch (ramp_codes_round_robin readOf es).2 = stepSeq e.now e.tgt ∧
      (chWrites e.ch (ramp_codes_round_robin readOf es).2).length =
        (e.tgt - e.now).natAbs ∧
      List.Chain (fun a b => (b - a).natAbs = 1 ∧
        (e.tgt - b).natAbs < (e.tgt - a).natAbs) e.now (stepSeq e.now e.tgt) ∧
      (∀ x ∈ stepSeq e.now e.tgt, min e.now e.tgt ≤ x ∧ x ≤ max e.now e.tgt) ∧
      (e.now ≠ e.tgt → (stepSeq e.now e.tgt).getLast? = some e.tgt) := by
  constructor
  · exact rampGo_fst readOf (totalDist es) es (le_refl _)
  · intro e hmem
    have hw := rampGo_chWrites readOf (totalDist es) es (le_refl _) hnd e hmem
    refine ⟨hw, ?_, stepSeq_chain e.now e.tgt,
      fun x hx => stepSeq_mem_between e.now e.tgt x hx,
      fun hne => stepSeq_getLast e.now e.tgt hne⟩
    unfold ramp_codes_round_robin
    rw [hw]
    exact stepSeq_length e.now e.tgt

theorem ramp_round_robin_correct_witness :
    (ramp_codes_round_robin (fun _ _ => (none, none, none)) rampExampleEntries).1 =
      rampExampleEntries.map (finalize (fun _ _ => (none, none, none))) ∧
    chWrites 0
      (ramp_codes_round_robin (fun _ _ => (none, none, none)) rampExampleEntries).2 =
      stepSeq 300 280 ∧
    (stepSeq 300 280).length = 20 := by
  have h := ramp_round_robin_correct (fun _ _ => (none, none, none))
    rampExampleEntries (by decide)
  refine ⟨h.1, ?_, of_decide_eq_true (by with_unfolding_all rfl)⟩
  have h0 := h.2 ⟨0, 300, 280, none, none, none⟩ (by simp [rampExampleEntries])
  exact h0.1

/-! ## Claim C7: the inter-write delay -/

theorem stepEnt_id_of_done (readOf : ℕ → ℤ → Reading) (e : REnt)
    (h : e.now = e.tgt) : stepEnt readOf e = e := by
  unfold stepEnt
  rw [if_pos h]

theorem passAux_of_allDone (readOf : ℕ → ℤ → Reading) (rest : List REnt)
    (h : ∀ e ∈ rest, e.now = e.tgt) (done : List REnt) :
    passAux readOf done rest = (done ++ rest, []) := by
  induction rest generalizing done with
  | nil => simp [passAux]
  | cons e rs ih =>
    simp only [passAux]
    rw [if_pos (h e (List.mem_cons_self _ _))]
    rw [ih (fun e' he' => h e' (List.mem_cons_of_mem _ he')) (done ++ [e])]
    simp

theorem map_stepEnt_of_allDone (readOf : ℕ → ℤ → Reading) (rs : List REnt)
    (h : ∀ e ∈ rs, e.now = e.tgt) : rs.map (stepEnt readOf) = rs := by
  rw [List.map_congr_left (fun e he => stepEnt_id_of_done readOf e (h e he))]
  exact List.map_id rs

theorem pairsOnly_append (xs ys : List Ev) (hx : pairsOnly xs = true) :
    pairsOnly (xs ++ ys) = pairsOnly ys := by
  induction xs using pairsOnly.induct with
  | case1 => simp
  | case2 c k g rest ih =>
    simp only [pairsOnly, Bool.and_eq_true] at hx
    simp only [List.cons_append, pairsOnly, List.append_eq]
    rw [ih hx.2]
    simp [hx.1]
  | case3 l h1 h2 =>
    -- the fallthrough case contradicts `pairsOnly xs = true`
    have hfalse : pairsOnly l = false := by
      unfold pairsOnly
      split
      · exact (h1 rfl).elim
      · rename_i a b g rest
        exact (h2 a b g rest rfl).elim
      · rfl
    rw [hfalse] at hx
    cases hx

/-- The shape of the event trace of one pass: either no events (nothing was
pending), or write-sleep pairs ending in a bare write (after which nothing is
pending any more), or write-sleep pairs only (with something still pending
after the pass). -/
theorem passAux_shape (readOf : ℕ → ℤ → Reading) (rest : List REnt)
    (done : List REnt) :
    ((passAux readOf done rest).2 = [] ∧ ∀ e ∈ rest, e.now = e.tgt) ∨
    (∃ xs c k, (passAux readOf done rest).2 = xs ++ [Ev.write c k] ∧
      pairsOnly xs = true ∧
      anyPending (done ++ rest.map (stepEnt readOf)) = false) ∨
    (pairsOnly (passAux readOf done rest).2 = true ∧
      (passAux readOf done rest).2 ≠ [] ∧
      anyPending (done ++ rest.map (stepEnt readOf)) = true) := by
  induction rest generalizing done with
  | nil =>
    left
    constructor
    · simp [passAux]
    · intro e he
      cases he
  | cons e rs ih =>
    by_cases hd : e.now = e.tgt
    · have hpass : passAux readOf done (e :: rs) = passAux readOf (done ++ [e]) rs := by
        simp only [passAux]
        rw [if_pos hd]
      have hfinal : done ++ (e :: rs).map (stepEnt readOf) =
          (done ++ [e]) ++ rs.map (stepEnt readOf) := by
        simp [stepEnt_id_of_done readOf e hd]
      rw [hpass, hfinal]
      rcases ih (done ++ [e]) with ⟨h1, h2⟩ | h | h
      · left
        refine ⟨h1, fun e' he' => ?_⟩
        rcases List.mem_cons.mp he' with h' | h'
        · subst h'; exact hd
        · exact h2 e' h'
      · right; left; exact h
      · right; right; exact h
    · -- the channel is pending: one write is issued
      have hgap : (0 : ℚ) < INTER_DAC_WRITE_GAP_SEC := by
        norm_num [INTER_DAC_WRITE_GAP_SEC]
      by_cases hb : anyPending (done ++ applyWrite readOf e :: rs) = true
      · -- sleep after this write
        have hpass : (passAux readOf done (e :: rs)).2 =
            Ev.write e.ch (applyWrite readOf e).now ::
            Ev.sleep INTER_DAC_WRITE_GAP_SEC ::
            (passAux readOf (done ++ [applyWrite readOf e]) rs).2 := by
          simp only [passAux]
          rw [if_neg hd, if_pos ⟨hgap, hb⟩]
          rfl
        have hfinal : done ++ (e :: rs).map (stepEnt readOf) =
            (done ++ [applyWrite readOf e]) ++ rs.map (stepEnt readOf) := by
          simp only [List.map_cons]
          rw [show stepEnt readOf e = applyWrite readOf e from by
            unfold stepEnt; rw [if_neg hd]]
          simp
        rw [hfinal]
        rcases ih (done ++ [applyWrite readOf e]) with ⟨h1, h2⟩ | ⟨xs, c, k, h1, h2, h3⟩ | ⟨h1, h2, h3⟩
        · -- nothing further in the pass: the trace is one write-sleep pair
          right; right
          rw [hpass, h1]
          refine ⟨?_, by simp, ?_⟩
          · simp [pairsOnly]
          · rw [map_stepEnt_of_allDone readOf rs h2]
            have : done ++ [applyWrite readOf e] ++ rs =
                done ++ applyWrite readOf e :: rs := by simp
            rw [this]
            exact hb
        · right; left
          exact ⟨Ev.write e.ch (applyWrite readOf e).now ::
            Ev.sleep INTER_DAC_WRITE_GAP_SEC :: xs, c, k,
            by rw [hpass, h1]; rfl,
            by simp [pairsOnly, h2], h3⟩
        · right; right
          rw [hpass]
          refine ⟨by simp [pairsOnly, h1], by simp, h3⟩
      · -- no sleep: everything is done after this write
        have hb' : anyPending (done ++ applyWrite readOf e :: rs) = false := by
          simpa using hb
        have hall := (anyPending_eq_false_iff _).mp hb'
        have hrs : ∀ e' ∈ rs, e'.now = e'.tgt := fun e' he' =>
          hall e' (by simp [he'])
        have hpass : (passAux readOf done (e :: rs)).2 =
            [Ev.write e.ch (applyWrite readOf e).now] := by
          simp only [passAux]
          rw [if_neg hd, if_neg (by
            intro hcon
            exact absurd hcon.2 hb)]
          rw [passAux_of_allDone readOf rs hrs (done ++ [applyWrite readOf e])]
          rfl
        right; left
        refine ⟨[], e.ch, (applyWrite readOf e).now, by rw [hpass]; rfl, rfl, ?_⟩
        simp only [List.map_cons]
        rw [show stepEnt readOf e = applyWrite readOf e from by
          unfold stepEnt; rw [if_neg hd]]
        rw [map_stepEnt_of_allDone readOf rs hrs]
        have : done ++ applyWrite readOf e :: rs.map id =
            done ++ applyWrite readOf e :: rs := by simp
        simpa using hb'

theorem rampGo_trace_empty_of_not_pending (readOf : ℕ → ℤ → Reading)
    (fuel : ℕ) (es : List REnt) (h : anyPending es = false) :
    (rampGo readOf fuel es).2 = [] := by
  cases fuel with
  | zero => rfl
  | succ n =>
    simp only [rampGo]
    rw [if_neg (by simp [h])]

theorem passWrites_ne_nil (es : List REnt) (h : anyPending es = true) :
    passWrites es ≠ [] := by
  unfold anyPending at h
  obtain ⟨e, hmem, hpend⟩ := List.any_eq_true.mp h
  have hne : e.now ≠ e.tgt := by simpa using hpend
  intro hcon
  have : (e.ch, stepToward e.now e.tgt) ∈ passWrites es :=
    List.mem_filterMap.mpr ⟨e, hmem, by rw [if_neg hne]⟩
  rw [hcon] at this
  cases this

theorem passAux_snd_ne_nil (readOf : ℕ → ℤ → Reading) (rest : List REnt)
    (h : anyPending rest = true) (done : List REnt) :
    (passAux readOf done rest).2 ≠ [] := by
  intro hcon
  have hw := passAux_writes readOf rest done
  rw [hcon] at hw
  exact passWrites_ne_nil rest h (by
    unfold writesOf at hw
    simpa using hw.symm)

theorem rampGo_trace_ne_nil (readOf : ℕ → ℤ → Reading) (fuel : ℕ)
    (es : List REnt) (h : anyPending es = true) (hfuel : 1 ≤ fuel) :
    (rampGo readOf fuel es).2 ≠ [] := by
  cases fuel with
  | zero => omega
  | succ n =>
    simp only [rampGo]
    rw [if_pos h]
    intro hcon
    rcases List.append_eq_nil.mp hcon with ⟨h1, _⟩
    exact passAux_snd_ne_nil readOf es h [] h1

theorem anyPending_of_totalDist_pos (es : List REnt) (h : 1 ≤ totalDist es) :
    anyPending es = true := by
  by_contra hcon
  have hfalse : anyPending es = false := by simpa using hcon
  have hall := (anyPending_eq_false_iff es).mp hfalse
  unfold totalDist at h
  have : ∀ x ∈ es.map (fun e => (e.tgt - e.now).natAbs), x = 0 := by
    intro x hx
    obtain ⟨e, hmem, heq⟩ := List.mem_map.mp hx
    rw [← heq]
    have := hall e hmem
    omega
  rw [List.sum_eq_zero this] at h
  omega

/-- The full trace of the ramp loop is empty or consists of write-sleep
pairs ended by one bare write. -/
theorem rampGo_trace_shape (readOf : ℕ → ℤ → Reading) (fuel : ℕ)
    (es : List REnt) (hfuel : totalDist es ≤ fuel) :
    (rampGo readOf fuel es).2 = [] ∨
    ∃ xs c k, (rampGo readOf fuel es).2 = xs ++ [Ev.write c k] ∧
      pairsOnly xs = true := by
  induction fuel generalizing es with
  | zero => left; rfl
  | succ n ih =>
    by_cases h : anyPending es = true
    · have htr : (rampGo readOf (n + 1) es).2 =
          (passAux readOf [] es).2 ++ (rampGo readOf n (es.map (stepEnt readOf))).2 := by
        simp only [rampGo]
        rw [if_pos h, passAux_fst]
        rfl
      have hfuel' : totalDist (es.map (stepEnt readOf)) ≤ n := by
        have := totalDist_map_lt readOf es h
        omega
      rcases passAux_shape readOf es [] with ⟨h1, h2⟩ | ⟨xs, c, k, h1, h2, h3⟩ | ⟨h1, h2, h3⟩
      · exfalso
        have : anyPending es = false := (anyPending_eq_false_iff es).mpr h2
        rw [this] at h
        cases h
      · right
        rw [htr, h1]
        rw [List.nil_append] at h3
        rw [rampGo_trace_empty_of_not_pending readOf n _ h3]
        exact ⟨xs, c, k, by simp, h2⟩
      · rw [List.nil_append] at h3
        have hn1 : 1 ≤ n := by
          by_contra hcon
          have hn0 : n = 0 := by omega
          rw [hn0] at hfuel'
          have hz := totalDist_eq_zero_all_done (es.map (stepEnt readOf)) (by omega)
          have hfalse : anyPending (es.map (stepEnt readOf)) = false :=
            (anyPending_eq_false_iff _).mpr hz
          rw [hfalse] at h3
          cases h3
        have hne := rampGo_trace_ne_nil readOf n _ h3 hn1
        rcases ih (es.map (stepEnt readOf)) hfuel' with hnil | ⟨ys, c, k, hys, hpairs⟩
        · exact absurd hnil hne
        · right
          refine ⟨(passAux readOf [] es).2 ++ ys, c, k, ?_, ?_⟩
          · rw [htr, hys, List.append_assoc]
          · rw [pairsOnly_append _ _ h1]
            exact hpairs
    · left
      exact rampGo_trace_empty_of_not_pending readOf (n + 1) es (by simpa using h)

/-- Claim C7 (amended): the fixed delay follows every hardware apply EXCEPT
the final one of the ramp — the event trace is empty or consists of
write-sleep pairs (each apply immediately followed by the configured gap)
terminated by one bare write, after which the controller returns without
sleeping (the source sleeps only while `any_pending()` still holds). -/
theorem ramp_delay_after_each_apply_except_last (readOf : ℕ → ℤ → Reading)
    (es : List REnt) :
    (ramp_codes_round_robin readOf es).2 = [] ∨
    ∃ xs c k, (ramp_codes_round_robin readOf es).2 = xs ++ [Ev.write c k] ∧
      pairsOnly xs = true :=
  rampGo_trace_shape readOf (totalDist es) es (le_refl _)

/-- Claim C7 (counterexample): a one-channel ramp of a single step produces
the trace `[write]` with no sleep after the final apply, so the claim that
every apply (the final one included) is followed by the configured delay is
false. -/
theorem final_apply_not_delayed :
    (ramp_codes_round_robin (fun _ _ => (none, none, none))
        [⟨0, 300, 301, none, none, none⟩]).2 = [Ev.write 0 301] ∧
    ¬ everyApplyDelayed (ramp_codes_round_robin (fun _ _ => (none, none, none))
        [⟨0, 300, 301, none, none, none⟩]).2 := by
  have h1 : (ramp_codes_round_robin (fun _ _ => (none, none, none))
      [⟨0, 300, 301, none, none, none⟩]).2 = [Ev.write 0 301] :=
    of_decide_eq_true (by with_unfolding_all rfl)
  refine ⟨h1, ?_⟩
  intro hcon
  rw [h1] at hcon
  have := hcon ⟨0, by decide⟩ (by rfl)
  exact absurd this.1 (by decide)

/-! ## Claim C6: the quality gate -/

/-- Claim C6: for every non-empty block whose used count is below
`MIN_SAMPLES_PER_BLOCK` or whose temperature spread exceeds the ceiling
(population std above `T_STD_MAX_C`, embedded as variance above its square),
the environmental row is still emitted, but no channel state changes, no
adjustment row is emitted and no hardware write is issued. -/
theorem quality_gate_rejects (readOf : ℕ → ℤ → Reading)
    (states : List (ℕ × ChState)) (block_rows : List Row)
    (hne : block_rows ≠ [])
    (hgate : (block_filtered block_rows).length < MIN_SAMPLES_PER_BLOCK ∨
      T_STD_MAX_C ^ 2 < block_Tvar block_rows) :
    (blockStep readOf states block_rows).states = states ∧
    (blockStep readOf states block_rows).envRow.isSome = true ∧
    (blockStep readOf states block_rows).adjRows = [] ∧
    (blockStep readOf states block_rows).events = [] := by
  have hlen : ¬ block_rows.length = 0 := by
    intro h
    exact hne (List.length_eq_zero.mp h)
  have hused : ¬ (block_filtered block_rows).length = 0 := by
    intro h
    have hpos := (filter_outliers_keeps_rows true block_rows hne).1
    exact hpos (List.length_eq_zero.mp h)
  simp only [blockStep]
  rw [if_neg hlen, if_neg hused]
  by_cases h1 : (block_filtered block_rows).length < MIN_SAMPLES_PER_BLOCK
  · rw [if_pos h1]
    exact ⟨rfl, rfl, rfl, rfl⟩
  · rw [if_neg h1]
    have h2 : T_STD_MAX_C ^ 2 < block_Tvar block_rows := by
      rcases hgate with h | h
      · exact absurd h h1
      · exact h
    rw [if_pos h2]
    exact ⟨rfl, rfl, rfl, rfl⟩

theorem quality_gate_rejects_witness :
    (blockStep (fun _ _ => (none, none, none))
      [(0, ⟨START_CODE, code_to_vlow START_CODE, none, none, none⟩)]
      shortBlock).states =
      [(0, ⟨START_CODE, code_to_vlow START_CODE, none, none, none⟩)] ∧
    (blockStep (fun _ _ => (none, none, none))
      [(0, ⟨START_CODE, code_to_vlow START_CODE, none, none, none⟩)]
      shortBlock).envRow.isSome = true ∧
    (blockStep (fun _ _ => (none, none, none))
      [(0, ⟨START_CODE, code_to_vlow START_CODE, none, none, none⟩)]
      shortBlock).adjRows = [] ∧
    (blockStep (fun _ _ => (none, none, none))
      [(0, ⟨START_CODE, code_to_vlow START_CODE, none, none, none⟩)]
      shortBlock).events = [] :=
  quality_gate_rejects (fun _ _ => (none, none, none))
    [(0, ⟨START_CODE, code_to_vlow START_CODE, none, none, none⟩)] shortBlock
    (by simp [shortBlock])
    (Or.inl (of_decide_eq_true (by with_unfolding_all rfl)))

/-! ## Claim C8: codes stay in [0, 1023] -/

/-- A successful anti-dither gate returns exactly the planned target code. -/
theorem planChannel_some_eq (minStepCodes : ℤ) (minStepVolts : ℚ)
    (vlow_ref dV : ℚ) (code_prev t : ℤ)
    (h : planChannel minStepCodes minStepVolts vlow_ref dV code_prev = some t) :
    t = plan_code_tgt vlow_ref dV code_prev := by
  simp only [planChannel] at h
  split_ifs at h with h1 h2
  exact (Option.some.inj h).symm

/-- A target that passes the default anti-dither gate differs from the
previous code. -/
theorem planChannel_some_ne (vlow_ref dV : ℚ) (code_prev t : ℤ)
    (h : planChannel MIN_STEP_CODES MIN_STEP_VOLTS vlow_ref dV code_prev =
      some t) : code_prev ≠ t := by
  simp only [planChannel, MIN_STEP_CODES] at h
  split_ifs at h with h1 h2
  have ht := Option.some.inj h
  rw [not_lt, le_abs] at h1
  rcases h1 with h1 | h1 <;> omega

/-- The wrapper form of `rampGo_fst`. -/
theorem ramp_fst (readOf : ℕ → ℤ → Reading) (es : List REnt) :
    (ramp_codes_round_robin readOf es).1 = es.map (finalize readOf) :=
  rampGo_fst readOf (totalDist es) es (le_refl _)

/-- A ramp entry's final code is its target. -/
theorem finalize_now (readOf : ℕ → ℤ → Reading) (e : REnt) :
    (finalize readOf e).now = e.tgt := by
  unfold finalize
  split_ifs with h
  · exact h
  · rfl

theorem finalize_ch (readOf : ℕ → ℤ → Reading) (e : REnt) :
    (finalize readOf e).ch = e.ch := by
  unfold finalize
  split_ifs with h <;> rfl

theorem passWrites_bounded (es : List REnt) (lo hi : ℤ)
    (hb : entriesIn lo hi es) :
    ∀ p ∈ passWrites es, lo ≤ p.2 ∧ p.2 ≤ hi := by
  intro p hp
  obtain ⟨e, hmem, heq⟩ := List.mem_filterMap.mp hp
  by_cases hd : e.now = e.tgt
  · rw [if_pos hd] at heq
    cases heq
  · rw [if_neg hd] at heq
    cases heq
    have hbet := stepToward_between e.now e.tgt hd
    have hbe := hb e hmem
    simp only
    omega

theorem entriesIn_stepEnt (readOf : ℕ → ℤ → Reading) (es : List REnt)
    (lo hi : ℤ) (hb : entriesIn lo hi es) :
    entriesIn lo hi (es.map (stepEnt readOf)) := by
  intro e' he'
  obtain ⟨e, hmem, heq⟩ := List.mem_map.mp he'
  have hbe := hb e hmem
  subst heq
  unfold stepEnt
  split_ifs with hd
  · exact hbe
  · have hbet := stepToward_between e.now e.tgt hd
    unfold applyWrite
    simp only
    omega

theorem rampGo_writes_bounded (readOf : ℕ → ℤ → Reading) (fuel : ℕ)
    (es : List REnt) (lo hi : ℤ) (hb : entriesIn lo hi es) :
    ∀ p ∈ writesOf (rampGo readOf fuel es).2, lo ≤ p.2 ∧ p.2 ≤ hi := by
  induction fuel generalizing es with
  | zero =>
    intro p hp
    cases hp
  | succ n ih =>
    intro p hp
    simp only [rampGo] at hp
    split_ifs at hp with h
    · rw [passAux_fst, List.nil_append] at hp
      simp only at hp
      rw [writesOf_append] at hp
      rcases List.mem_append.mp hp with h1 | h1
      · rw [passAux_writes] at h1
        exact passWrites_bounded es lo hi hb p h1
      · exact ih (es.map (stepEnt readOf)) (entriesIn_stepEnt readOf es lo hi hb) p h1
    · cases hp

/-- Claim C8: if every channel's `last_applied_code` lies in [0, 1023], then
after one control-loop block every channel's `last_applied_code` still lies in
[0, 1023], every code passed to a hardware apply during the block lies in
[0, 1023], and the start code applied at startup lies in [0, 1023].  The
preservation comes from the compensation step's clamps (`plan_code_tgt` is
clamped into [0, 1023]) and from the one-step ramp moves staying between
start and target. -/
theorem codes_in_range_invariant (readOf : ℕ → ℤ → Reading)
    (states : List (ℕ × ChState)) (block_rows : List Row)
    (hG : ∀ p ∈ states, 0 ≤ p.2.last_code ∧ p.2.last_code ≤ 1023) :
    (∀ p ∈ (blockStep readOf states block_rows).states,
      0 ≤ p.2.last_code ∧ p.2.last_code ≤ 1023) ∧
    (∀ ev ∈ (blockStep readOf states block_rows).events, writeCodeOk ev) ∧
    (0 ≤ START_CODE ∧ START_CODE ≤ 1023) := by
  have hpend : ∀ q ∈ block_pending states
      (block_dV_of (block_dT_of (block_Tavg block_rows))),
      (0 ≤ q.2.1 ∧ q.2.1 ≤ 1023) ∧ (0 ≤ q.2.2.1 ∧ q.2.2.1 ≤ 1023) := by
    intro q hq
    unfold block_pending at hq
    obtain ⟨p, hmem, heq⟩ := List.mem_filterMap.mp hq
    rcases hplan : planChannel MIN_STEP_CODES MIN_STEP_VOLTS p.2.vlow_ref
        (block_dV_of (block_dT_of (block_Tavg block_rows))) p.2.last_code with _ | t
    · rw [hplan] at heq
      cases heq
    · rw [hplan] at heq
      cases heq
      have ht := planChannel_some_eq _ _ _ _ _ _ hplan
      subst ht
      exact ⟨hG p hmem, plan_code_tgt_nonneg _ _ _, plan_code_tgt_le _ _ _⟩
  have hents : entriesIn 0 1023 (block_entries (block_pending states
      (block_dV_of (block_dT_of (block_Tavg block_rows))))) := by
    intro e he
    unfold block_entries at he
    obtain ⟨q, hmem, heq⟩ := List.mem_map.mp he
    subst heq
    have := hpend q hmem
    simp only
    omega
  refine ⟨?_, ?_, by norm_num [START_CODE]⟩
  · intro p hp
    simp only [blockStep] at hp
    split_ifs at hp with h1 h2 h3 h4
    · exact hG p hp
    · exact hG p hp
    · exact hG p hp
    · exact hG p hp
    · -- accept path: the state store holds either the old code or a ramp
      -- target, both in range
      unfold block_updateStates at hp
      obtain ⟨p0, hmem0, heq0⟩ := List.mem_map.mp hp
      rcases hfind : (ramp_codes_round_robin readOf (block_entries
          (block_pending states (block_dV_of (block_dT_of
            (block_Tavg block_rows)))))).1.find? (fun e => e.ch == p0.1)
          with _ | eF
      · rw [hfind] at heq0
        subst heq0
        exact hG p0 hmem0
      · rw [hfind] at heq0
        have hEF : eF ∈ (ramp_codes_round_robin readOf (block_entries
            (block_pending states (block_dV_of (block_dT_of
              (block_Tavg block_rows)))))).1 :=
          List.mem_of_find?_eq_some hfind
        rw [ramp_fst] at hEF
        obtain ⟨e, hmem, heqe⟩ := List.mem_map.mp hEF
        have hb := hents e hmem
        have hnow : eF.now = e.tgt := by rw [← heqe, finalize_now]
        rw [← heq0]
        dsimp only
        rw [hnow]
        omega
  · intro ev hev
    simp only [blockStep] at hev
    split_ifs at hev with h1 h2 h3 h4
    · cases hev
    · cases hev
    · cases hev
    · cases hev
    · cases hvw : ev with
      | sleep g => trivial
      | write c k =>
        have hwmem : (c, k) ∈ writesOf (ramp_codes_round_robin readOf
            (block_entries (block_pending states (block_dV_of (block_dT_of
              (block_Tavg block_rows)))))).2 := by
          unfold writesOf
          refine List.mem_filterMap.mpr ⟨ev, hev, ?_⟩
          rw [hvw]
        have := rampGo_writes_bounded readOf _ _ 0 1023 hents (c, k) hwmem
        exact this

theorem codes_in_range_invariant_witness :
    (∀ p ∈ (blockStep (fun _ _ => (none, none, none))
        [(0, ⟨START_CODE, code_to_vlow START_CODE, none, none, none⟩)]
        shortBlock).states,
      0 ≤ p.2.last_code ∧ p.2.last_code ≤ 1023) ∧
    (∀ ev ∈ (blockStep (fun _ _ => (none, none, none))
        [(0, ⟨START_CODE, code_to_vlow START_CODE, none, none, none⟩)]
        shortBlock).events, writeCodeOk ev) ∧
    (0 ≤ START_CODE ∧ START_CODE ≤ 1023) :=
  codes_in_range_invariant (fun _ _ => (none, none, none))
    [(0, ⟨START_CODE, code_to_vlow START_CODE, none, none, none⟩)] shortBlock
    (by
      intro p hp
      rcases List.mem_singleton.mp hp with rfl
      norm_num [START_CODE])

/-! ## Claim C9: hardware-apply failure handling -/

/-- A pending entry finalizes to its target with the readings of the final
apply. -/
theorem finalize_of_pending (readOf : ℕ → ℤ → Reading) (e : REnt)
    (h : e.now ≠ e.tgt) :
    finalize readOf e = ⟨e.ch, e.tgt, e.tgt, (readOf e.ch e.tgt).1,
      (readOf e.ch e.tgt).2.1, (readOf e.ch e.tgt).2.2⟩ := by
  unfold finalize
  rw [if_neg h]

/-- The keys of the pending list form a sublist of the state-store keys. -/
theorem block_pending_keys_sublist (states : List (ℕ × ChState)) (dV : ℚ) :
    ((block_pending states dV).map (fun q => q.1)).Sublist
      (states.map Prod.fst) := by
  induction states with
  | nil => simp [block_pending]
  | cons p ps ih =>
    simp only [block_pending, List.filterMap_cons, List.map_cons]
    rcases hplan : planChannel MIN_STEP_CODES MIN_STEP_VOLTS p.2.vlow_ref dV
        p.2.last_code with _ | t
    · exact ih.cons p.1
    · simp only [List.map_cons]
      exact ih.cons₂ p.1

/-- In a list of ramp entries with unique channels, `find?` by an element's
channel returns that element. -/
theorem find?_eq_of_nodup (l : List REnt) (hnd : (l.map REnt.ch).Nodup)
    (e : REnt) (hmem : e ∈ l) :
    l.find? (fun x => x.ch == e.ch) = some e := by
  induction l with
  | nil => cases hmem
  | cons a rs ih =>
    simp only [List.map_cons, List.nodup_cons] at hnd
    rcases List.mem_cons.mp hmem with h | h
    · subst h
      exact List.find?_cons_of_pos _ (by simp)
    · have hne : a.ch ≠ e.ch := fun hcon =>
        hnd.1 (hcon ▸ List.mem_map.mpr ⟨e, h, rfl⟩)
      rw [List.find?_cons_of_neg _ (by simpa using hne)]
      exact ih hnd.2 h

/-- Claim C9: if a channel's planned target passes both gates in an accepted
block, then after the block the channel's `last_applied_code` equals the
intended target code NO MATTER what the hardware apply returned (`readOf` is
arbitrary, failed applies included); its stored after-voltage is the measured
low-side voltage when the final apply returned one, and the calibration
model's `code_to_vlow target` exactly when the reading was NaN (`none`); the
raw (possibly NaN) high-voltage and bias readings are stored as is; and the
adjustment row records the same fallback after-voltage. -/
theorem apply_failure_still_updates_code (readOf : ℕ → ℤ → Reading)
    (states : List (ℕ × ChState)) (block_rows : List Row) (ch : ℕ)
    (s : ChState) (tgt : ℤ)
    (hnd : (states.map Prod.fst).Nodup)
    (hmem : (ch, s) ∈ states)
    (hne : block_rows ≠ [])
    (hused : ¬ (block_filtered block_rows).length < MIN_SAMPLES_PER_BLOCK)
    (hvar : ¬ T_STD_MAX_C ^ 2 < block_Tvar block_rows)
    (hplan : planChannel MIN_STEP_CODES MIN_STEP_VOLTS s.vlow_ref
      (block_dV_of (block_dT_of (block_Tavg block_rows))) s.last_code =
      some tgt) :
    (ch, (⟨tgt, s.vlow_ref, some ((readOf ch tgt).2.1.getD (code_to_vlow tgt)),
        (readOf ch tgt).1, (readOf ch tgt).2.2⟩ : ChState)) ∈
      (blockStep readOf states block_rows).states ∧
    (⟨ch, s.last_code, tgt, s.last_vlow.getD (code_to_vlow s.last_code),
        (readOf ch tgt).2.1.getD (code_to_vlow tgt),
        block_dT_of (block_Tavg block_rows),
        (readOf ch tgt).1, (readOf ch tgt).2.2⟩ : AdjRow) ∈
      (blockStep readOf states block_rows).adjRows := by
  have hlen : ¬ block_rows.length = 0 := fun h =>
    hne (List.length_eq_zero.mp h)
  have hused0 : ¬ (block_filtered block_rows).length = 0 := fun h =>
    (filter_outliers_keeps_rows true block_rows hne).1
      (List.length_eq_zero.mp h)
  -- the pending tuple contributed by this channel
  have hq : (ch, s.last_code, tgt, s.last_vlow.getD (code_to_vlow s.last_code)) ∈
      block_pending states (block_dV_of (block_dT_of (block_Tavg block_rows))) := by
    refine List.mem_filterMap.mpr ⟨(ch, s), hmem, ?_⟩
    rw [hplan]
  -- its ramp entry
  have he : (⟨ch, s.last_code, tgt, none, none, none⟩ : REnt) ∈
      block_entries (block_pending states
        (block_dV_of (block_dT_of (block_Tavg block_rows)))) :=
    List.mem_map.mpr ⟨_, hq, rfl⟩
  -- the entry channels are unique
  have hndents : ((block_entries (block_pending states
      (block_dV_of (block_dT_of (block_Tavg block_rows))))).map REnt.ch).Nodup := by
    unfold block_entries
    rw [List.map_map]
    exact List.Nodup.sublist (block_pending_keys_sublist states _) hnd
  -- the final ramp entry of this channel
  have hpendne : s.last_code ≠ tgt := planChannel_some_ne _ _ _ _ hplan
  have hfin : finalize readOf (⟨ch, s.last_code, tgt, none, none, none⟩ : REnt) =
      ⟨ch, tgt, tgt, (readOf ch tgt).1, (readOf ch tgt).2.1,
        (readOf ch tgt).2.2⟩ :=
    finalize_of_pending readOf _ hpendne
  have hndfin : (((block_entries (block_pending states
      (block_dV_of (block_dT_of (block_Tavg block_rows))))).map
        (finalize readOf)).map REnt.ch).Nodup := by
    rw [List.map_map]
    have : ((block_entries (block_pending states (block_dV_of (block_dT_of
        (block_Tavg block_rows))))).map (REnt.ch ∘ finalize readOf)) =
        ((block_entries (block_pending states (block_dV_of (block_dT_of
          (block_Tavg block_rows))))).map REnt.ch) :=
      List.map_congr_left (fun e _ => finalize_ch readOf e)
    rw [this]
    exact hndents
  have hfind : (ramp_codes_round_robin readOf (block_entries (block_pending
      states (block_dV_of (block_dT_of (block_Tavg block_rows)))))).1.find?
      (fun x => x.ch == ch) =
      some (⟨ch, tgt, tgt, (readOf ch tgt).1, (readOf ch tgt).2.1,
        (readOf ch tgt).2.2⟩ : REnt) := by
    rw [ramp_fst]
    have hmemF : finalize readOf (⟨ch, s.last_code, tgt, none, none, none⟩ : REnt) ∈
        ((block_entries (block_pending states (block_dV_of (block_dT_of
          (block_Tavg block_rows))))).map (finalize readOf)) :=
      List.mem_map.mpr ⟨(⟨ch, s.last_code, tgt, none, none, none⟩ : REnt), he, rfl⟩
    have := find?_eq_of_nodup _ hndfin _ hmemF
    rw [hfin] at this
    exact this
  constructor
  · -- the updated channel state
    simp only [blockStep]
    rw [if_neg hlen, if_neg hused0, if_neg hused, if_neg hvar]
    dsimp only
    unfold block_updateStates
    refine List.mem_map.mpr ⟨(ch, s), hmem, ?_⟩
    rw [hfind]
  · -- the adjustment row
    simp only [blockStep]
    rw [if_neg hlen, if_neg hused0, if_neg hused, if_neg hvar]
    dsimp only
    unfold block_adjRows
    refine List.mem_filterMap.mpr
      ⟨(ch, s.last_code, tgt, s.last_vlow.getD (code_to_vlow s.last_code)),
        hq, ?_⟩
    rw [hfind]

theorem apply_failure_still_updates_code_witness :
    (0, (⟨747, code_to_vlow START_CODE, some (code_to_vlow 747), none,
        none⟩ : ChState)) ∈
      (blockStep (fun _ _ => (none, none, none))
        [(0, ⟨START_CODE, code_to_vlow START_CODE, none, none, none⟩)]
        acceptBlock).states ∧
    (⟨0, START_CODE, 747, code_to_vlow START_CODE, code_to_vlow 747,
        block_dT_of (block_Tavg acceptBlock), none, none⟩ : AdjRow) ∈
      (blockStep (fun _ _ => (none, none, none))
        [(0, ⟨START_CODE, code_to_vlow START_CODE, none, none, none⟩)]
        acceptBlock).adjRows :=
  apply_failure_still_updates_code (fun _ _ => (none, none, none))
    [(0, ⟨START_CODE, code_to_vlow START_CODE, none, none, none⟩)]
    acceptBlock 0 ⟨START_CODE, code_to_vlow START_CODE, none, none, none⟩ 747
    (of_decide_eq_true (by with_unfolding_all rfl))
    (List.mem_singleton.mpr rfl)
    (of_decide_eq_true (by with_unfolding_all rfl))
    (of_decide_eq_true (by with_unfolding_all rfl))
    (of_decide_eq_true (by with_unfolding_all rfl))
    (of_decide_eq_true (by with_unfolding_all rfl))

end BiasAdj
